import Mathlib

/-!
# Verification of the `discover` coverage-trimming engine

A shallow embedding, in Lean 4, of the core of the `discover` repository:

* `parse.go` — `ParseProfile`'s two-pointer correlation sweep between
  position-sorted coverage records and function/statement extents;
* `trim.go` — `Profile.Trim` / `trimVisitor`: the tree trimmer that rewrites a
  parsed file down to the reached parts, extracting side-effecting calls;
* `build/cover.go` — `endsBasicSourceBlock` (basic-block partitioning) and the
  `addVariables` post-instrumentation self-check;
* `build/rewrite.go` — `addGoFunc`, the `go`-statement closure-capture rewrite.

Go AST nodes are embedded as inductive types.  Go keys statements and function
declarations by pointer identity (`map[ast.Stmt]bool`, `map[*ast.FuncDecl]bool`);
the embedding gives every node a stable `Nat` identity (`id`) and models the two
maps as `Nat → Bool` functions, following the spec's own modelling note
("tree identity as map key → an arena of nodes addressed by a stable integer
handle").  Fresh nodes constructed by the trimmer (the extracted bare call
statements) carry id 0; the trimmer never consults the reached-sets on them, so
the choice is irrelevant (and is proved so by the theorems below, which never
constrain id 0).
-/

namespace Discover

mutual

/-- Embedding of the `go/ast` expression forms the claims need.
`funcLit` holds the statement list of the literal's body block (`FuncLit.Body.List`)
together with the literal's parameter names. -/
inductive Expr : Type where
  | ident (name : String)
  | basicLit (value : String)
  | selector (x : Expr) (sel : String)
  | call (fn : Expr) (args : List Expr) (hasEllipsis : Bool)
  | binary (op : String) (x y : Expr)
  | funcLit (params : List String) (body : List Stmt)

/-- Embedding of the `go/ast` statement forms the claims need.  Each statement
carries its identity `id` (standing for the Go node's pointer identity).
`selectStmt` inlines its `Body` block (`*ast.BlockStmt`) as the block's
identity `bodyId` plus its statement list `clauses`, which the Go parser
populates with `*ast.CommClause` values but whose static type (`[]ast.Stmt`)
admits any statement — the embedding keeps the general type.
`simpleStmt` stands for the remaining statement forms that neither
`trim.go` nor `cover.go` special-cases (assignments, returns, sends, …); it
carries the expressions those statements contain so that call/function-literal
searches can descend into them. -/
inductive Stmt : Type where
  | exprStmt (id : Nat) (x : Expr)
  | simpleStmt (id : Nat) (exprs : List Expr)
  | branchStmt (id : Nat)
  | labeledStmt (id : Nat) (label : String) (stmt : Stmt)
  | blockStmt (id : Nat) (list : List Stmt)
  | ifStmt (id : Nat) (init : Option Stmt) (cond : Expr) (body : Stmt) (els : Option Stmt)
  | forStmt (id : Nat) (init : Option Stmt) (cond : Option Expr) (post : Option Stmt) (body : Stmt)
  | rangeStmt (id : Nat) (x : Expr) (body : Stmt)
  | switchStmt (id : Nat) (body : Stmt)
  | typeSwitchStmt (id : Nat) (body : Stmt)
  | selectStmt (id : Nat) (bodyId : Nat) (clauses : List Stmt)
  | commClause (id : Nat) (body : List Stmt)
  | caseClause (id : Nat) (body : List Stmt)

end

/-- The identity of a statement node (Go: the pointer). -/
def stmtId : Stmt → Nat
  | .exprStmt id _ => id
  | .simpleStmt id _ => id
  | .branchStmt id => id
  | .labeledStmt id _ _ => id
  | .blockStmt id _ => id
  | .ifStmt id _ _ _ _ => id
  | .forStmt id _ _ _ _ => id
  | .rangeStmt id _ _ => id
  | .switchStmt id _ => id
  | .typeSwitchStmt id _ => id
  | .selectStmt id _ _ => id
  | .commClause id _ => id
  | .caseClause id _ => id

/-- A top-level declaration of a file: a function declaration (with its
identity and body block) or any other declaration (`GenDecl`: imports, types,
vars), which the trimmer treats uniformly. -/
inductive Decl : Type where
  | funcDecl (id : Nat) (name : String) (body : Stmt)
  | genDecl (id : Nat)

/-- A parsed source file: its ordered top-level declarations (`ast.File.Decls`). -/
structure GoFile : Type where
  decls : List Decl

/-- `discover.Profile` (parse.go): the correlation result.  `Stmts` and `Funcs`
are the reached-sets keyed by node identity; `Files` the parsed files;
`Fset` an opaque handle for the shared position table. -/
structure Profile : Type where
  Stmts : Nat → Bool
  Funcs : Nat → Bool
  Files : List GoFile
  Fset : Nat

/-- First-match combinator for the pre-order searches below: the result of
searching an earlier subtree, if any, otherwise that of the later one. -/
def orFind (a b : Option Expr) : Option Expr :=
  match a with
  | some c => some c
  | none => b

mutual

/-- `trimVisitor.findCall` (trim.go), expression side: the first `*ast.CallExpr`
in a pre-order walk (`ast.Inspect`) of the tree rooted at the expression, or
`none`.  A call node is itself returned before its children are searched. -/
def findCallExpr : Expr → Option Expr
  | .ident _ => none
  | .basicLit _ => none
  | .selector x _ => findCallExpr x
  | .call fn args ell => some (.call fn args ell)
  | .binary _ x y => orFind (findCallExpr x) (findCallExpr y)
  | .funcLit _ body => findCallStmtList body

/-- `trimVisitor.findCall`, statement side: pre-order search of a statement's
children in `go/ast` walk order. -/
def findCallStmt : Stmt → Option Expr
  | .exprStmt _ x => findCallExpr x
  | .simpleStmt _ exprs => findCallExprList exprs
  | .branchStmt _ => none
  | .labeledStmt _ _ s => findCallStmt s
  | .blockStmt _ l => findCallStmtList l
  | .ifStmt _ init cond body els =>
      orFind (findCallStmtOpt init)
        (orFind (findCallExpr cond) (orFind (findCallStmt body) (findCallStmtOpt els)))
  | .forStmt _ init cond post body =>
      orFind (findCallStmtOpt init)
        (orFind (findCallExprOpt cond) (orFind (findCallStmtOpt post) (findCallStmt body)))
  | .rangeStmt _ x body => orFind (findCallExpr x) (findCallStmt body)
  | .switchStmt _ body => findCallStmt body
  | .typeSwitchStmt _ body => findCallStmt body
  | .selectStmt _ _ clauses => findCallStmtList clauses
  | .commClause _ body => findCallStmtList body
  | .caseClause _ body => findCallStmtList body

/-- `findCall` on a nilable statement (`ast.Node` that may be nil). -/
def findCallStmtOpt : Option Stmt → Option Expr
  | none => none
  | some s => findCallStmt s

/-- `findCall` on a nilable expression. -/
def findCallExprOpt : Option Expr → Option Expr
  | none => none
  | some e => findCallExpr e

/-- `findCall` over the elements of a statement list, in order. -/
def findCallStmtList : List Stmt → Option Expr
  | [] => none
  | s :: rest => orFind (findCallStmt s) (findCallStmtList rest)

/-- `findCall` over the elements of an expression list, in order. -/
def findCallExprList : List Expr → Option Expr
  | [] => none
  | e :: rest => orFind (findCallExpr e) (findCallExprList rest)

end

/-- `trimVisitor.visited` on a non-nil statement: membership of the statement's
identity in the Profile's reached-set `Stmts`. -/
def visited (p : Profile) (s : Stmt) : Bool :=
  p.Stmts (stmtId s)

/-- `trimVisitor.visited` including the nil case (`if stmt == nil { return false }`),
used for `IfStmt.Else`. -/
def visitedOpt (p : Profile) : Option Stmt → Bool
  | none => false
  | some s => visited p s

/-- The loop in `replaceStmt` that turns the non-nil entries of a list of
`findCall` results into bare expression statements, in order.  The constructed
`&ast.ExprStmt{call}` nodes are fresh; they carry identity 0 here. -/
def extractCalls (calls : List (Option Expr)) : List Stmt :=
  (calls.filterMap id).map (fun c => Stmt.exprStmt 0 c)

mutual

/-- `trimVisitor.replaceStmt` (trim.go): the statements that replace `stmt`
inside an enclosing statement list. -/
def replaceStmt (p : Profile) : Stmt → List Stmt
  | .rangeStmt id x body =>
      if visited p body then [.rangeStmt id x body]
      else
        match findCallExpr x with
        | some call => [.exprStmt 0 call]
        | none => []
  | .forStmt id init cond post body =>
      if visited p body then [.forStmt id init cond post body]
      else extractCalls [findCallStmtOpt init, findCallExprOpt cond, findCallStmtOpt post]
  | .ifStmt id init cond body els =>
      if !visited p body then
        extractCalls [findCallStmtOpt init, findCallExpr cond]
          ++ (if visitedOpt p els then replaceStmtOpt p els else [])
      else
        if !visitedOpt p els then [.ifStmt id init cond body none]
        else [.ifStmt id init cond body els]
  | .selectStmt id bodyId clauses =>
      [.selectStmt id bodyId (clauses.filter (fun s => visited p s))]
  | s => [s]

/-- `replaceStmt` applied to a nilable statement (`case nil: return nil`),
as happens at the recursive call on `stmt.Else`. -/
def replaceStmtOpt (p : Profile) : Option Stmt → List Stmt
  | none => []
  | some s => replaceStmt p s

end

def orFind_eq_some {a b : Option Expr} {c : Expr} (h : orFind a b = some c) :
    a = some c ∨ b = some c := by
  cases a <;> simp [orFind] at h <;> simp [h]

mutual

def findCallExpr_sizeOf (e : Expr) (c : Expr) (h : findCallExpr e = some c) :
    sizeOf c ≤ sizeOf e := by
  match e with
  | .ident n => simp [findCallExpr] at h
  | .basicLit v => simp [findCallExpr] at h
  | .selector x sel =>
    simp only [findCallExpr] at h
    have := findCallExpr_sizeOf x c h
    simp
    omega
  | .call fn args ell =>
    simp [findCallExpr] at h
    subst h
    simp
  | .binary op x y =>
    simp only [findCallExpr] at h
    rcases orFind_eq_some h with h1 | h1
    · have := findCallExpr_sizeOf x c h1
      simp
      omega
    · have := findCallExpr_sizeOf y c h1
      simp
      omega
  | .funcLit ps body =>
    simp only [findCallExpr] at h
    have := findCallStmtList_sizeOf body c h
    simp
    omega

def findCallStmt_sizeOf (s : Stmt) (c : Expr) (h : findCallStmt s = some c) :
    sizeOf c ≤ sizeOf s := by
  match s with
  | .exprStmt id x =>
    simp only [findCallStmt] at h
    have := findCallExpr_sizeOf x c h
    simp
    omega
  | .simpleStmt id exprs =>
    simp only [findCallStmt] at h
    have := findCallExprList_sizeOf exprs c h
    simp
    omega
  | .branchStmt id => simp [findCallStmt] at h
  | .labeledStmt id lab s1 =>
    simp only [findCallStmt] at h
    have := findCallStmt_sizeOf s1 c h
    simp
    omega
  | .blockStmt id l =>
    simp only [findCallStmt] at h
    have := findCallStmtList_sizeOf l c h
    simp
    omega
  | .ifStmt id init cond body els =>
    simp only [findCallStmt] at h
    rcases orFind_eq_some h with h1 | h1
    · have := findCallStmtOpt_sizeOf init c h1
      simp
      omega
    rcases orFind_eq_some h1 with h2 | h2
    · have := findCallExpr_sizeOf cond c h2
      simp
      omega
    rcases orFind_eq_some h2 with h3 | h3
    · have := findCallStmt_sizeOf body c h3
      simp
      omega
    · have := findCallStmtOpt_sizeOf els c h3
      simp
      omega
  | .forStmt id init cond post body =>
    simp only [findCallStmt] at h
    rcases orFind_eq_some h with h1 | h1
    · have := findCallStmtOpt_sizeOf init c h1
      simp
      omega
    rcases orFind_eq_some h1 with h2 | h2
    · have := findCallExprOpt_sizeOf cond c h2
      simp
      omega
    rcases orFind_eq_some h2 with h3 | h3
    · have := findCallStmtOpt_sizeOf post c h3
      simp
      omega
    · have := findCallStmt_sizeOf body c h3
      simp
      omega
  | .rangeStmt id x body =>
    simp only [findCallStmt] at h
    rcases orFind_eq_some h with h1 | h1
    · have := findCallExpr_sizeOf x c h1
      simp
      omega
    · have := findCallStmt_sizeOf body c h1
      simp
      omega
  | .switchStmt id body =>
    simp only [findCallStmt] at h
    have := findCallStmt_sizeOf body c h
    simp
    omega
  | .typeSwitchStmt id body =>
    simp only [findCallStmt] at h
    have := findCallStmt_sizeOf body c h
    simp
    omega
  | .selectStmt id bid clauses =>
    simp only [findCallStmt] at h
    have := findCallStmtList_sizeOf clauses c h
    simp
    omega
  | .commClause id body =>
    simp only [findCallStmt] at h
    have := findCallStmtList_sizeOf body c h
    simp
    omega
  | .caseClause id body =>
    simp only [findCallStmt] at h
    have := findCallStmtList_sizeOf body c h
    simp
    omega

def findCallStmtOpt_sizeOf (o : Option Stmt) (c : Expr) (h : findCallStmtOpt o = some c) :
    sizeOf c ≤ sizeOf o := by
  match o with
  | none => simp [findCallStmtOpt] at h
  | some s =>
    simp only [findCallStmtOpt] at h
    have := findCallStmt_sizeOf s c h
    simp
    omega

def findCallExprOpt_sizeOf (o : Option Expr) (c : Expr) (h : findCallExprOpt o = some c) :
    sizeOf c ≤ sizeOf o := by
  match o with
  | none => simp [findCallExprOpt] at h
  | some e =>
    simp only [findCallExprOpt] at h
    have := findCallExpr_sizeOf e c h
    simp
    omega

def findCallStmtList_sizeOf (l : List Stmt) (c : Expr) (h : findCallStmtList l = some c) :
    sizeOf c ≤ sizeOf l := by
  match l with
  | [] => simp [findCallStmtList] at h
  | s :: rest =>
    simp only [findCallStmtList] at h
    rcases orFind_eq_some h with h1 | h1
    · have := findCallStmt_sizeOf s c h1
      simp
      omega
    · have := findCallStmtList_sizeOf rest c h1
      simp
      omega

def findCallExprList_sizeOf (l : List Expr) (c : Expr) (h : findCallExprList l = some c) :
    sizeOf c ≤ sizeOf l := by
  match l with
  | [] => simp [findCallExprList] at h
  | e :: rest =>
    simp only [findCallExprList] at h
    rcases orFind_eq_some h with h1 | h1
    · have := findCallExpr_sizeOf e c h1
      simp
      omega
    · have := findCallExprList_sizeOf rest c h1
      simp
      omega

end

def sizeOf_filter_le (f : Stmt → Bool) (l : List Stmt) :
    sizeOf (l.filter f) ≤ sizeOf l := by
  induction l with
  | nil => simp
  | cons s rest ih =>
    rw [List.filter_cons]
    cases f s <;> simp <;> omega

def mem_extractCalls {opts : List (Option Expr)} {t : Stmt} (h : t ∈ extractCalls opts) :
    ∃ c, t = Stmt.exprStmt 0 c ∧ some c ∈ opts := by
  simp only [extractCalls, List.mem_map, List.mem_filterMap, id] at h
  obtain ⟨c, ⟨o, ho, rfl⟩, rfl⟩ := h
  exact ⟨c, rfl, ho⟩

mutual

def replaceStmt_sizeOf (p : Profile) (s t : Stmt) (h : t ∈ replaceStmt p s) :
    sizeOf t ≤ sizeOf s := by
  match s with
  | .exprStmt id x => simp [replaceStmt] at h; simp [h]
  | .simpleStmt id exprs => simp [replaceStmt] at h; simp [h]
  | .branchStmt id => simp [replaceStmt] at h; simp [h]
  | .labeledStmt id lab s1 => simp [replaceStmt] at h; simp [h]
  | .blockStmt id l => simp [replaceStmt] at h; simp [h]
  | .switchStmt id body => simp [replaceStmt] at h; simp [h]
  | .typeSwitchStmt id body => simp [replaceStmt] at h; simp [h]
  | .commClause id body => simp [replaceStmt] at h; simp [h]
  | .caseClause id body => simp [replaceStmt] at h; simp [h]
  | .rangeStmt id x body =>
    simp only [replaceStmt] at h
    by_cases hv : visited p body
    · simp [hv] at h
      simp [h]
    · simp [hv] at h
      match hc : findCallExpr x with
      | some call =>
        rw [hc] at h
        simp at h
        subst h
        have := findCallExpr_sizeOf x call hc
        simp
        omega
      | none => rw [hc] at h; simp at h
  | .forStmt id init cond post body =>
    simp only [replaceStmt] at h
    by_cases hv : visited p body
    · simp [hv] at h
      simp [h]
    · simp [hv] at h
      obtain ⟨c, rfl, hc⟩ := mem_extractCalls h
      simp only [List.mem_cons, List.mem_singleton] at hc
      rcases hc with hc | hc | hc | hc
      · have := findCallStmtOpt_sizeOf init c hc.symm
        simp
        omega
      · have := findCallExprOpt_sizeOf cond c hc.symm
        simp
        omega
      · have := findCallStmtOpt_sizeOf post c hc.symm
        simp
        omega
      · simp at hc
  | .ifStmt id init cond body els =>
    simp only [replaceStmt] at h
    by_cases hv : visited p body
    · simp [hv] at h
      by_cases hve : visitedOpt p els
      · simp [hve] at h
        simp [h]
      · simp [hve] at h
        subst h
        have h1 : 1 ≤ sizeOf els := by cases els <;> simp
        simp
        omega
    · simp only [hv, Bool.not_false, if_pos, Bool.false_eq_true, not_false_eq_true,
        Bool.not_eq_true] at h
      rw [List.mem_append] at h
      rcases h with h | h
      · obtain ⟨c, rfl, hc⟩ := mem_extractCalls h
        simp only [List.mem_cons, List.mem_singleton] at hc
        rcases hc with hc | hc | hc
        · have := findCallStmtOpt_sizeOf init c hc.symm
          simp
          omega
        · have := findCallExpr_sizeOf cond c hc.symm
          simp
          omega
        · simp at hc
      · by_cases hve : visitedOpt p els
        · simp [hve] at h
          have := replaceStmtOpt_sizeOf p els t h
          simp
          omega
        · simp [hve] at h
  | .selectStmt id bid clauses =>
    simp [replaceStmt] at h
    subst h
    have := sizeOf_filter_le (fun s => visited p s) clauses
    simp
    omega

def replaceStmtOpt_sizeOf (p : Profile) (o : Option Stmt) (t : Stmt)
    (h : t ∈ replaceStmtOpt p o) : sizeOf t ≤ sizeOf o := by
  match o with
  | none => simp [replaceStmtOpt] at h
  | some s =>
    simp only [replaceStmtOpt] at h
    have := replaceStmt_sizeOf p s t h
    simp
    omega

end

mutual

/-- The recursive descent `ast.Walk(&trimVisitor{p}, ·)` performs on a single
statement node after that node has been placed in its parent's replaced list:
the visitor's `Visit` rewrites the statement list of every list-bearing node it
encounters (`*ast.BlockStmt`, `*ast.CommClause`, `*ast.CaseClause`, and — for a
select — the clause list of its body block) via `trimList`, and otherwise just
descends into the node's children. -/
def trimStmt (p : Profile) : Stmt → Stmt
  | .exprStmt id x => .exprStmt id (trimExpr p x)
  | .simpleStmt id exprs => .simpleStmt id (trimExprList p exprs)
  | .branchStmt id => .branchStmt id
  | .labeledStmt id lab s => .labeledStmt id lab (trimStmt p s)
  | .blockStmt id l => .blockStmt id (trimList p l)
  | .ifStmt id init cond body els =>
      .ifStmt id (trimStmtOpt p init) (trimExpr p cond) (trimStmt p body) (trimStmtOpt p els)
  | .forStmt id init cond post body =>
      .forStmt id (trimStmtOpt p init) (trimExprOpt p cond) (trimStmtOpt p post) (trimStmt p body)
  | .rangeStmt id x body => .rangeStmt id (trimExpr p x) (trimStmt p body)
  | .switchStmt id body => .switchStmt id (trimStmt p body)
  | .typeSwitchStmt id body => .typeSwitchStmt id (trimStmt p body)
  | .selectStmt id bid clauses => .selectStmt id bid (trimList p clauses)
  | .commClause id body => .commClause id (trimList p body)
  | .caseClause id body => .caseClause id (trimList p body)
termination_by s => sizeOf s
decreasing_by all_goals (simp_wf; try omega)

/-- Descent into expressions: the only structural effect is on the statement
lists of function-literal bodies, which the walk trims like any other block. -/
def trimExpr (p : Profile) : Expr → Expr
  | .ident n => .ident n
  | .basicLit v => .basicLit v
  | .selector x sel => .selector (trimExpr p x) sel
  | .call fn args ell => .call (trimExpr p fn) (trimExprList p args) ell
  | .binary op x y => .binary op (trimExpr p x) (trimExpr p y)
  | .funcLit ps body => .funcLit ps (trimList p body)
termination_by e => sizeOf e
decreasing_by all_goals (simp_wf; try omega)

def trimStmtOpt (p : Profile) : Option Stmt → Option Stmt
  | none => none
  | some s => some (trimStmt p s)
termination_by o => sizeOf o
decreasing_by all_goals (simp_wf; try omega)

def trimExprOpt (p : Profile) : Option Expr → Option Expr
  | none => none
  | some e => some (trimExpr p e)
termination_by o => sizeOf o
decreasing_by all_goals (simp_wf; try omega)

def trimExprList (p : Profile) : List Expr → List Expr
  | [] => []
  | e :: rest => trimExpr p e :: trimExprList p rest
termination_by l => sizeOf l
decreasing_by all_goals (simp_wf; try omega)

/-- The rewrite `Visit` applies to a statement list: each element is replaced by
`replaceStmt` (the list is rewritten in place before the walk descends), and the
walk then recurses into every statement of the replaced list.  `List.attach` is
used so the recursion can appeal to `replaceStmt_sizeOf`; `trimList_cons` below
restates this as a plain `map`. -/
def trimList (p : Profile) : List Stmt → List Stmt
  | [] => []
  | s :: rest =>
      ((replaceStmt p s).attach.map (fun t => trimStmt p t.val)) ++ trimList p rest
termination_by l => sizeOf l
decreasing_by
  all_goals simp_wf
  all_goals (have h9 := replaceStmt_sizeOf p s t.val t.property; omega)

end

/-- The `*ast.File` case of `trimVisitor.Visit`: the loop over `node.Decls`
that appends to `replaced` exactly the declarations that are function
declarations marked reached in the profile's `Funcs` set. -/
def trimDecls (p : Profile) : List Decl → List Decl
  | [] => []
  | d :: ds =>
      match d with
      | .funcDecl id name body =>
          if p.Funcs id then Decl.funcDecl id name body :: trimDecls p ds
          else trimDecls p ds
      | .genDecl _ => trimDecls p ds

/-- The walk's descent into a kept declaration: `ast.Walk` reaches the
function's body block, whose statement lists `Visit` rewrites. -/
def trimDecl (p : Profile) : Decl → Decl
  | .funcDecl id name body => .funcDecl id name (trimStmt p body)
  | .genDecl id => .genDecl id

/-- `Profile.Trim` on an `*ast.File`: `Visit` first replaces the declaration
list, then the walk descends into each kept declaration.  (The comment-map
filtering `Trim` also performs uses `go/ast`'s external `CommentMap` machinery
and is outside the tree model.) -/
def trimFile (p : Profile) (f : GoFile) : GoFile :=
  ⟨(trimDecls p f.decls).map (trimDecl p)⟩

/-- One step of the declaration filter with the profile value threaded through
explicitly, for the frame claim: the `*ast.File` case of `Visit` only reads
`v.p.Funcs` and writes nothing back to the profile, so each step returns the
profile it was given. -/
def declKeepP (p : Profile) (d : Decl) : Bool × Profile :=
  match d with
  | .funcDecl id _ _ => (p.Funcs id, p)
  | .genDecl _ => (false, p)

/-- The declaration-filter loop with the profile threaded through every
iteration (each iteration runs against the profile state left by the one
before it, as the Go loop does with `v.p`). -/
def trimDeclsP (p : Profile) : List Decl → List Decl × Profile
  | [] => ([], p)
  | d :: ds =>
      let r1 := declKeepP p d
      let r2 := trimDeclsP r1.2 ds
      (if r1.1 then d :: r2.1 else r2.1, r2.2)

/-- The walk's descent into one kept declaration, profile threaded through.
The statement-level trimming code (`replaceStmt`, `visited`, `findCall`)
contains no assignment to `v.p` or any of its fields — its only profile
accesses are the `Stmts` map reads in `visited` — so the descent returns the
profile unchanged alongside the rewritten declaration. -/
def trimDeclP (p : Profile) : Decl → Decl × Profile
  | .funcDecl id name body => (.funcDecl id name (trimStmt p body), p)
  | .genDecl id => (.genDecl id, p)

/-- Descent over the kept declaration list, profile threaded. -/
def trimDeclListP (p : Profile) : List Decl → List Decl × Profile
  | [] => ([], p)
  | d :: ds =>
      let r1 := trimDeclP p d
      let r2 := trimDeclListP r1.2 ds
      (r1.1 :: r2.1, r2.2)

/-- `Profile.Trim` on a file with the profile state made explicit: the pair of
the rewritten file and the profile value the run ends with. -/
def trimFileP (p : Profile) (f : GoFile) : GoFile × Profile :=
  let r1 := trimDeclsP p f.decls
  let r2 := trimDeclListP r1.2 r1.1
  (⟨r2.1⟩, r2.2)

/-- Is this statement a `*ast.CommClause`?  The Go parser populates a select
statement's body exclusively with comm clauses (spec §3: "select: ordered list
of communication clauses"). -/
def isCommClause : Stmt → Bool
  | .commClause _ _ => true
  | _ => false

mutual

/-- Parser-wellformedness of an expression: every select statement anywhere
below it has only comm clauses in its body list.  Every tree produced by the
Go parser satisfies this; it is the shape invariant of `go/ast` select nodes. -/
def wfExpr : Expr → Bool
  | .ident _ => true
  | .basicLit _ => true
  | .selector x _ => wfExpr x
  | .call fn args _ => wfExpr fn && wfExprList args
  | .binary _ x y => wfExpr x && wfExpr y
  | .funcLit _ body => wfStmtList body

/-- Parser-wellformedness of a statement (see `wfExpr`). -/
def wfStmt : Stmt → Bool
  | .exprStmt _ x => wfExpr x
  | .simpleStmt _ exprs => wfExprList exprs
  | .branchStmt _ => true
  | .labeledStmt _ _ s => wfStmt s
  | .blockStmt _ l => wfStmtList l
  | .ifStmt _ init cond body els =>
      wfStmtOpt init && wfExpr cond && wfStmt body && wfStmtOpt els
  | .forStmt _ init cond post body =>
      wfStmtOpt init && wfExprOpt cond && wfStmtOpt post && wfStmt body
  | .rangeStmt _ x body => wfExpr x && wfStmt body
  | .switchStmt _ body => wfStmt body
  | .typeSwitchStmt _ body => wfStmt body
  | .selectStmt _ _ clauses => clauses.all isCommClause && wfStmtList clauses
  | .commClause _ body => wfStmtList body
  | .caseClause _ body => wfStmtList body

def wfStmtOpt : Option Stmt → Bool
  | none => true
  | some s => wfStmt s

def wfExprOpt : Option Expr → Bool
  | none => true
  | some e => wfExpr e

def wfStmtList : List Stmt → Bool
  | [] => true
  | s :: rest => wfStmt s && wfStmtList rest

def wfExprList : List Expr → Bool
  | [] => true
  | e :: rest => wfExpr e && wfExprList rest

end

/-- Parser-wellformedness of a declaration. -/
def wfDecl : Decl → Bool
  | .funcDecl _ _ body => wfStmt body
  | .genDecl _ => true

/-- Parser-wellformedness of a file. -/
def wfFile (f : GoFile) : Bool :=
  f.decls.all wfDecl

/-!
## The profile correlation sweep (`ParseProfile`, parse.go)

`ParseProfile` runs the identical two-pointer loop twice per file: once over the
function extents and once over the statement extents, each time against the
file's full coverage-record list.  The loop state and one outer iteration are
modelled verbatim; extents are identified by the node identity they describe.
-/

/-- `funcExtent` / `stmtExtent` (parse.go): the extent of a function or
statement — the described node's identity plus its source span. -/
structure Extent : Type where
  id : Nat
  startLine : Int
  startCol : Int
  endLine : Int
  endCol : Int
deriving DecidableEq

/-- One coverage record (`cover.ProfileBlock`): a source span, the number of
statements, and the execution count. -/
structure PBlock : Type where
  startLine : Int
  startCol : Int
  endLine : Int
  endCol : Int
  numStmt : Int
  count : Int
deriving DecidableEq

/-- `b.StartLine > f.endLine || (b.StartLine == f.endLine && b.StartCol >= f.endCol)`:
the record starts past the end of the extent. -/
def pastEnd (b : PBlock) (e : Extent) : Bool :=
  decide (b.startLine > e.endLine) ||
    (decide (b.startLine = e.endLine) && decide (b.startCol ≥ e.endCol))

/-- `b.EndLine < f.startLine || (b.EndLine == f.startLine && b.EndCol <= f.startCol)`:
the record ends before the beginning of the extent. -/
def beforeBegin (b : PBlock) (e : Extent) : Bool :=
  decide (b.endLine < e.startLine) ||
    (decide (b.endLine = e.startLine) && decide (b.endCol ≤ e.startCol))

/-- A record positionally overlaps an extent when it is neither past its end
nor before its beginning. -/
def overlaps (b : PBlock) (e : Extent) : Bool :=
  !pastEnd b e && !beforeBegin b e

/-- The inner `for i, b := range blocks` loop of the sweep, for one extent `e`.
`orig` is the value of the outer `blocks` variable when the loop starts (the
list being ranged over); the last argument is the part still to be scanned.

* a record past the end of `e` consumes `e` unmarked and sets the record
  cursor to the suffix starting at that record (`blocks = blocks[i:]`);
* a record before the beginning of `e` is skipped (`continue`);
* any other record overlaps `e`: `e` is consumed, marked exactly when the
  record's count is positive, and the record cursor stays at `orig`
  (that branch does not reassign `blocks`).

`none` means the loop ran through every record without a `break`: the outer
loop's state is then completely unchanged, so the Go loop repeats the same
iteration forever. -/
def scanBlocks (e : Extent) (orig : List PBlock) : List PBlock → Option (List PBlock × Bool)
  | [] => none
  | b :: bs =>
      if pastEnd b e then some (b :: bs, false)
      else if beforeBegin b e then scanBlocks e orig bs
      else some (orig, decide (b.count > 0))

/-- The state of the outer sweep loop: the extents still to process, the
current record cursor, and the identities marked reached so far. -/
structure SweepState : Type where
  extents : List Extent
  blocks : List PBlock
  reached : List Nat

/-- One iteration of the outer `for len(funcs) > 0 { f := funcs[0]; ... }`
loop.  When the inner loop finds no record to consume the extent with, the
iteration leaves the state untouched. -/
def sweepStep (st : SweepState) : SweepState :=
  match st.extents with
  | [] => st
  | e :: es =>
      match scanBlocks e st.blocks st.blocks with
      | none => st
      | some (bs, marked) =>
          ⟨es, bs, if marked then st.reached ++ [e.id] else st.reached⟩

/-- `n` iterations of the outer loop (stopping early once the guard
`len(funcs) > 0` fails). -/
def runSweep : Nat → SweepState → SweepState
  | 0, st => st
  | n + 1, st =>
      match st.extents with
      | [] => st
      | _ :: _ => runSweep n (sweepStep st)

/-- The sweep on `(es, bs)` terminates: some number of iterations empties the
extent list (after which the loop guard fails and the loop exits). -/
def SweepTerminates (es : List Extent) (bs : List PBlock) : Prop :=
  ∃ n, (runSweep n ⟨es, bs, []⟩).extents = []

/-- Lexicographic order on source positions, as the sweep's comparisons induce
it: extents listed in position order satisfy this pairwise on start positions. -/
def startLE (e1 e2 : Extent) : Prop :=
  e1.startLine < e2.startLine ∨ (e1.startLine = e2.startLine ∧ e1.startCol ≤ e2.startCol)

instance startLE.decidable : ∀ e1 e2, Decidable (startLE e1 e2) := by
  intro e1 e2
  unfold startLE
  infer_instance

/-!
## The instrumentation self-check (`fileCover.addVariables`, build/cover.go)
-/

/-- `build.Block`: a basic block recorded during instrumentation — byte span
plus number of real statements. -/
structure CBlock : Type where
  startByte : Nat
  endByte : Nat
  numStmt : Nat

/-- `block1`: a block paired with its index in `f.blocks`, for the self-check. -/
structure Block1 : Type where
  block : CBlock
  index : Nat

/-- `blockSlice.Less`: ordering by start position. -/
def blockLE (a b : Block1) : Prop :=
  a.block.startByte ≤ b.block.startByte

instance blockLE.decidable : ∀ a b, Decidable (blockLE a b) := by
  intro a b
  unfold blockLE
  infer_instance

/-- The sort in `addVariables`: the blocks are enumerated with their indices
(`t[i].index = i`) and sorted by start position.  `sort.Sort(blockSlice(t))`
is an unspecified comparison sort over `Less`; it is modelled by insertion
sort over the same ordering. -/
def sortBlocks (blocks : List CBlock) : List Block1 :=
  (blocks.enum.map (fun ib => Block1.mk ib.2 ib.1)).insertionSort blockLE

/-- One diagnostic line pair written to the error stream by the self-check:
the indices of the two conflicting blocks and both their byte spans. -/
structure OverlapDiag : Type where
  firstIndex : Nat
  secondIndex : Nat
  firstStart : Nat
  firstEnd : Nat
  secondStart : Nat
  secondEnd : Nat

/-- The self-check loop `for i := 1; i < len(t); i++`: every adjacent pair of
the sorted list in which the earlier block ends past the later block's start
produces a diagnostic carrying both spans.  Nothing else happens: no abort,
no error return. -/
def selfCheck : List Block1 → List OverlapDiag
  | [] => []
  | [_] => []
  | a :: b :: rest =>
      (if a.block.endByte > b.block.startByte then
        [⟨a.index, b.index, a.block.startByte, a.block.endByte,
          b.block.startByte, b.block.endByte⟩]
      else []) ++ selfCheck (b :: rest)

/-- The declaration block `addVariables` writes after the self-check, keyed by
the original (unsorted) block list: the counter-array length, the position
table (start line, end line, and the packed column word
`(endCol & 0xFFFF) << 16 | (startCol & 0xFFFF)`), and the per-block statement
counts clamped to 16 bits.  `posOf` is the file-set's byte-offset → (line,
column) translation, an input to this computation. -/
structure CoverDecl : Type where
  numBlocks : Nat
  pos : List (Nat × Nat × Nat)
  numStmt : List Nat

/-- The output `addVariables` generates (the `fmt.Fprintf(w, ...)` sequence),
as a function of the block list and the position table. -/
def mkCoverDecl (posOf : Nat → Nat × Nat) (blocks : List CBlock) : CoverDecl where
  numBlocks := blocks.length
  pos := blocks.map (fun b =>
    let s := posOf b.startByte
    let e := posOf b.endByte
    (s.1, e.1, (e.2 % 65536) * 65536 + s.2 % 65536))
  numStmt := blocks.map (fun b => min b.numStmt 65535)

/-- `fileCover.addVariables`: first the self-check over the sorted blocks,
whose findings go to the error stream, then — unconditionally — the
declaration output.  Its result is the pair (error-stream diagnostics,
generated declaration block). -/
def addVariables (posOf : Nat → Nat × Nat) (blocks : List CBlock) :
    List OverlapDiag × CoverDecl :=
  (selfCheck (sortBlocks blocks), mkCoverDecl posOf blocks)

/-!
## The `go`-statement rewrite (`rewriter.addGoFunc`, build/rewrite.go)
-/

/-- `traceIDName` (build/rewrite.go). -/
def traceIDName : String := "_discover_trace_id_"

/-- The fields of the `*ast.CallExpr` that `addGoFunc` consumes and produces:
callee, arguments, and whether the call spreads its last argument
(`call.Ellipsis != token.NoPos`). -/
structure GoCall : Type where
  fn : Expr
  args : List Expr
  hasEllipsis : Bool

/-- `rewriter.addGoFunc`: rewrites the call of a `go` statement into
`func(f func()) { ruPkg.ChildEnable(_discover_trace_id_); f() }(ruPkg.Make[Variadic]Func(fun, args...))`. -/
def addGoFunc (ruPkg : String) (call : GoCall) : GoCall :=
  let fn := if call.hasEllipsis then "MakeVariadicFunc" else "MakeFunc"
  let closureCall : Expr :=
    .call (.selector (.ident ruPkg) fn) (call.fn :: call.args) false
  let lit : Expr :=
    .funcLit ["f"]
      [ .exprStmt 0 (.call (.selector (.ident ruPkg) "ChildEnable")
          [.ident traceIDName] false),
        .exprStmt 0 (.call (.ident "f") [] false) ]
  ⟨lit, [closureCall], false⟩

/-!
## Basic-block boundaries (`fileCover.endsBasicSourceBlock`, build/cover.go)
-/

mutual

/-- `hasFuncLiteral` (cover.go), expression side: does the tree rooted at this
expression contain a function literal?  (`funcLitFinder` walks the tree and
records the first literal found; only its existence matters here.) -/
def hasFuncLitExpr : Expr → Bool
  | .ident _ => false
  | .basicLit _ => false
  | .selector x _ => hasFuncLitExpr x
  | .call fn args _ => hasFuncLitExpr fn || hasFuncLitExprList args
  | .binary _ x y => hasFuncLitExpr x || hasFuncLitExpr y
  | .funcLit _ _ => true

/-- `hasFuncLiteral`, statement side. -/
def hasFuncLitStmt : Stmt → Bool
  | .exprStmt _ x => hasFuncLitExpr x
  | .simpleStmt _ exprs => hasFuncLitExprList exprs
  | .branchStmt _ => false
  | .labeledStmt _ _ s => hasFuncLitStmt s
  | .blockStmt _ l => hasFuncLitStmtList l
  | .ifStmt _ init cond body els =>
      hasFuncLitStmtOpt init || hasFuncLitExpr cond || hasFuncLitStmt body ||
        hasFuncLitStmtOpt els
  | .forStmt _ init cond post body =>
      hasFuncLitStmtOpt init || hasFuncLitExprOpt cond || hasFuncLitStmtOpt post ||
        hasFuncLitStmt body
  | .rangeStmt _ x body => hasFuncLitExpr x || hasFuncLitStmt body
  | .switchStmt _ body => hasFuncLitStmt body
  | .typeSwitchStmt _ body => hasFuncLitStmt body
  | .selectStmt _ _ clauses => hasFuncLitStmtList clauses
  | .commClause _ body => hasFuncLitStmtList body
  | .caseClause _ body => hasFuncLitStmtList body

def hasFuncLitStmtOpt : Option Stmt → Bool
  | none => false
  | some s => hasFuncLitStmt s

def hasFuncLitExprOpt : Option Expr → Bool
  | none => false
  | some e => hasFuncLitExpr e

def hasFuncLitStmtList : List Stmt → Bool
  | [] => false
  | s :: rest => hasFuncLitStmt s || hasFuncLitStmtList rest

def hasFuncLitExprList : List Expr → Bool
  | [] => false
  | e :: rest => hasFuncLitExpr e || hasFuncLitExprList rest

end

/-- `fileCover.endsBasicSourceBlock` (cover.go): does the statement end the
current basic block?  Control-flow statements do; a labeled statement defers
to its wrapped statement; an expression statement that is a call of the bare
identifier `panic` with exactly one argument does (no type check confirms it
is the predefined `panic`); anything else ends the block exactly when it
contains a function literal. -/
def endsBasicSourceBlock : Stmt → Bool
  | .blockStmt _ _ => true
  | .branchStmt _ => true
  | .forStmt _ _ _ _ _ => true
  | .ifStmt _ _ _ _ _ => true
  | .labeledStmt _ _ s => endsBasicSourceBlock s
  | .rangeStmt _ _ _ => true
  | .switchStmt _ _ => true
  | .selectStmt _ _ _ => true
  | .typeSwitchStmt _ _ => true
  | .exprStmt id x =>
      match x with
      | .call (.ident name) args ell =>
          if name = "panic" ∧ args.length = 1 then true
          else hasFuncLitStmt (.exprStmt id (.call (.ident name) args ell))
      | _ => hasFuncLitStmt (.exprStmt id x)
  | s => hasFuncLitStmt s

/-!
## Supporting lemmas
-/

theorem trimList_nil (p : Profile) : trimList p [] = [] := by
  simp [trimList]

theorem trimList_cons (p : Profile) (s : Stmt) (rest : List Stmt) :
    trimList p (s :: rest) = (replaceStmt p s).map (trimStmt p) ++ trimList p rest := by
  rw [trimList]
  rw [List.attach_map_val (replaceStmt p s) (trimStmt p)]

/-- The walk descent never changes a node's identity. -/
theorem stmtId_trimStmt (p : Profile) (s : Stmt) : stmtId (trimStmt p s) = stmtId s := by
  cases s <;> simp [trimStmt, stmtId]

theorem visited_trimStmt (p : Profile) (s : Stmt) :
    visited p (trimStmt p s) = visited p s := by
  simp [visited, stmtId_trimStmt]

theorem visitedOpt_trimStmtOpt (p : Profile) (o : Option Stmt) :
    visitedOpt p (trimStmtOpt p o) = visitedOpt p o := by
  cases o <;> simp [visitedOpt, trimStmtOpt, visited_trimStmt]

/-- The declaration loop of `Visit` is the filter keeping reached function
declarations. -/
theorem trimDecls_eq_filter (p : Profile) (ds : List Decl) :
    trimDecls p ds =
      ds.filter (fun d =>
        match d with
        | .funcDecl id _ _ => p.Funcs id
        | .genDecl _ => false) := by
  induction ds with
  | nil => simp [trimDecls]
  | cons d ds ih =>
    cases d with
    | funcDecl id name body =>
      by_cases h : p.Funcs id <;> simp [trimDecls, h, ih, List.filter_cons]
    | genDecl id => simp [trimDecls, ih, List.filter_cons]

/-!
## Claim theorems
-/

/-- C7: after `Trim` runs on a file node, the top-level declaration list
consists exactly of the original function declarations whose identity is in
the reached-function set `Funcs`, in their original order (their bodies
rewritten in place by the descent); every non-function declaration is dropped
regardless of content. -/
theorem C7_file_decls (p : Profile) (f : GoFile) :
    (trimFile p f).decls =
      (f.decls.filter (fun d =>
        match d with
        | .funcDecl id _ _ => p.Funcs id
        | .genDecl _ => false)).map (trimDecl p) ∧
    ∀ d ∈ (trimFile p f).decls, ∃ id name body,
      d = Decl.funcDecl id name (trimStmt p body) ∧ p.Funcs id = true ∧
        Decl.funcDecl id name body ∈ f.decls := by
  constructor
  · simp [trimFile, trimDecls_eq_filter]
  · intro d hd
    simp only [trimFile, trimDecls_eq_filter, List.mem_map, List.mem_filter] at hd
    obtain ⟨d0, ⟨hmem, hkeep⟩, rfl⟩ := hd
    cases d0 with
    | funcDecl id name body =>
      exact ⟨id, name, body, rfl, by simpa using hkeep, hmem⟩
    | genDecl id => simp at hkeep

/-- C8: a select statement is always kept as a single replacement statement —
even when no clause survives — and its clause list is filtered to exactly the
clauses that were reached (the clause node's identity is in the reached set),
in their original order. -/
theorem C8_select (p : Profile) (id bodyId : Nat) (clauses : List Stmt) :
    replaceStmt p (.selectStmt id bodyId clauses) =
      [.selectStmt id bodyId (clauses.filter (fun s => visited p s))] := by
  simp [replaceStmt]

/-- C3: a loop (`for`) whose body was not reached is replaced by the up to
three bare expression statements wrapping the first call found in its init,
condition, and post, in that order, absent ones omitted; a range statement
whose body was not reached keeps exactly the first call found in its
collection expression as a bare expression statement, or is dropped entirely
when none exists; a loop or range whose body was reached is kept as that
single statement. -/
theorem C3_loops (p : Profile) (fid rid : Nat) (init post : Option Stmt)
    (cond : Option Expr) (x : Expr) (body body2 : Stmt) :
    (replaceStmt p (.forStmt fid init cond post body) =
      if visited p body then [.forStmt fid init cond post body]
      else extractCalls [findCallStmtOpt init, findCallExprOpt cond, findCallStmtOpt post]) ∧
    (replaceStmt p (.rangeStmt rid x body2) =
      if visited p body2 then [.rangeStmt rid x body2]
      else
        match findCallExpr x with
        | some call => [.exprStmt 0 call]
        | none => []) := by
  constructor
  · by_cases h : visited p body <;> simp [replaceStmt, h]
  · by_cases h : visited p body2 <;> simp [replaceStmt, h]

/-- C2, counterexample: for `if f() { A() } else { B() }` with the if-body not
reached but the else reached, the code does *not* replace the conditional by
the else branch's replacement statements alone — it emits the call extracted
from the condition first.  Here statement identities are: if = 5, if-body
block = 1, else block = 2; the profile marks only the else block (id 2)
reached.  The claim's case-2 reading would give `[{ B() }]`; the code gives
`[f(), { B() }]`. -/
theorem C2_counterexample :
    replaceStmt ⟨fun i => decide (i = 2), fun _ => false, [], 0⟩
      (.ifStmt 5 none (.call (.ident "f") [] false)
        (.blockStmt 1 [.exprStmt 3 (.call (.ident "A") [] false)])
        (some (.blockStmt 2 [.exprStmt 4 (.call (.ident "B") [] false)]))) ≠
    replaceStmt ⟨fun i => decide (i = 2), fun _ => false, [], 0⟩
      (.blockStmt 2 [.exprStmt 4 (.call (.ident "B") [] false)]) := by
  intro h
  have hlen := congrArg List.length h
  simp [replaceStmt, replaceStmtOpt, visited, visitedOpt, stmtId, extractCalls,
    findCallStmtOpt, findCallExpr] at hlen

/-- C2, amended: the conditional's replacement follows the four-case table on
(if-body reached, else reached), where the case "if-body not reached but else
reached" yields the calls extracted from init and condition *followed by* the
recursively computed replacement of the else branch; "neither reached" yields
only the extracted init/cond calls with the conditional and its else dropped;
"if reached, else not" keeps the conditional with its else cleared; "both
reached" keeps it unchanged.  In particular `if f() { A() } else { B() }` with
neither branch reached is replaced by the single statement `f()`. -/
theorem C2_if_table (p : Profile) (id : Nat) (init : Option Stmt) (cond : Expr)
    (body : Stmt) (els : Option Stmt) :
    (replaceStmt p (.ifStmt id init cond body els) =
      if visited p body then
        (if visitedOpt p els then [Stmt.ifStmt id init cond body els]
         else [Stmt.ifStmt id init cond body none])
      else
        extractCalls [findCallStmtOpt init, findCallExpr cond] ++
          (if visitedOpt p els then replaceStmtOpt p els else [])) ∧
    replaceStmt ⟨fun _ => false, fun _ => false, [], 0⟩
      (.ifStmt 5 none (.call (.ident "f") [] false)
        (.blockStmt 1 [.exprStmt 3 (.call (.ident "A") [] false)])
        (some (.blockStmt 2 [.exprStmt 4 (.call (.ident "B") [] false)]))) =
      [.exprStmt 0 (.call (.ident "f") [] false)] := by
  constructor
  · by_cases hv : visited p body <;> by_cases hve : visitedOpt p els <;>
      simp [replaceStmt, hv, hve]
  · simp [replaceStmt, visited, visitedOpt, stmtId, extractCalls,
      findCallStmtOpt, findCallExpr]

/-- C5: `addGoFunc` replaces the spawned call by an invocation of a fresh
function literal with the single parameter `f`; the invocation's single
argument is a capture-helper call — `MakeVariadicFunc` exactly when the
original call spread its last argument, `MakeFunc` otherwise — receiving the
original callee followed by all original arguments (so they are evaluated at
the spawn point, where the helper call sits); and the literal's body first
calls `ChildEnable` with the enclosing trace-ID variable and then invokes the
captured closure. -/
theorem C5_addGoFunc (ruPkg : String) (call : GoCall) :
    addGoFunc ruPkg call =
      ⟨.funcLit ["f"]
        [ .exprStmt 0 (.call (.selector (.ident ruPkg) "ChildEnable")
            [.ident traceIDName] false),
          .exprStmt 0 (.call (.ident "f") [] false) ],
        [.call (.selector (.ident ruPkg)
            (if call.hasEllipsis then "MakeVariadicFunc" else "MakeFunc"))
          (call.fn :: call.args) false],
        false⟩ ∧
    ((if call.hasEllipsis then "MakeVariadicFunc" else "MakeFunc") =
        "MakeVariadicFunc" ↔ call.hasEllipsis = true) := by
  constructor
  · simp [addGoFunc]
  · cases h : call.hasEllipsis <;> simp [h]

/-- C10: an expression statement calling the bare identifier `panic` with
exactly one argument ends the current basic block, with no type check that it
is the predefined `panic`; an expression statement calling any identifier is
a block boundary exactly when the callee is `panic` with one argument or the
statement contains a function literal; and branch and compound statements end
the block unconditionally. -/
theorem C10_endsBasicSourceBlock (id : Nat) (a : Expr) (ell : Bool)
    (name : String) (args : List Expr) (l : List Stmt) (init : Option Stmt)
    (cond : Expr) (body : Stmt) (els : Option Stmt) :
    endsBasicSourceBlock (.exprStmt id (.call (.ident "panic") [a] ell)) = true ∧
    (endsBasicSourceBlock (.exprStmt id (.call (.ident name) args ell)) =
      (decide (name = "panic" ∧ args.length = 1) ||
        hasFuncLitStmt (.exprStmt id (.call (.ident name) args ell)))) ∧
    endsBasicSourceBlock (.branchStmt id) = true ∧
    endsBasicSourceBlock (.blockStmt id l) = true ∧
    endsBasicSourceBlock (.ifStmt id init cond body els) = true ∧
    endsBasicSourceBlock (.selectStmt id 0 l) = true := by
  refine ⟨?_, ?_, ?_, ?_, ?_, ?_⟩
  · simp [endsBasicSourceBlock]
  · by_cases h : name = "panic" ∧ args.length = 1 <;>
      simp [endsBasicSourceBlock, h]
  · simp [endsBasicSourceBlock]
  · simp [endsBasicSourceBlock]
  · simp [endsBasicSourceBlock]
  · simp [endsBasicSourceBlock]

theorem selfCheck_subset (x : Block1) (l : List Block1) :
    selfCheck l ⊆ selfCheck (x :: l) := by
  cases l with
  | nil => simp [selfCheck]
  | cons y ys =>
    intro d hd
    simp only [selfCheck, List.mem_append]
    exact Or.inr hd

/-- Every adjacent overlapping pair of the checked list yields its diagnostic. -/
theorem selfCheck_mem (pre post : List Block1) (a b : Block1)
    (hover : a.block.endByte > b.block.startByte) :
    (⟨a.index, b.index, a.block.startByte, a.block.endByte,
      b.block.startByte, b.block.endByte⟩ : OverlapDiag) ∈
      selfCheck (pre ++ a :: b :: post) := by
  induction pre with
  | nil =>
    simp only [List.nil_append, selfCheck, List.mem_append]
    exact Or.inl (by simp [hover])
  | cons x pre ih =>
    have step : selfCheck (pre ++ a :: b :: post) ⊆
        selfCheck (x :: (pre ++ a :: b :: post)) := selfCheck_subset _ _
    simpa using step ih

/-- C4: the post-instrumentation self-check sorts the emitted blocks by start
position (the sorted list is a permutation of the indexed block list, ordered
by `startByte`), emits to the error stream one diagnostic carrying both byte
spans for every adjacent pair in which the earlier block ends past the later
block's start, and never aborts: the declaration output is generated from the
full original block list regardless of any diagnostics. -/
theorem C4_selfCheck (posOf : Nat → Nat × Nat) (blocks : List CBlock) :
    (sortBlocks blocks).Pairwise blockLE ∧
    List.Perm (sortBlocks blocks) (blocks.enum.map (fun ib => Block1.mk ib.2 ib.1)) ∧
    (∀ (pre post : List Block1) (a b : Block1),
      sortBlocks blocks = pre ++ a :: b :: post →
      a.block.endByte > b.block.startByte →
      (⟨a.index, b.index, a.block.startByte, a.block.endByte,
        b.block.startByte, b.block.endByte⟩ : OverlapDiag) ∈
        (addVariables posOf blocks).1) ∧
    (addVariables posOf blocks).2 = mkCoverDecl posOf blocks ∧
    (addVariables posOf blocks).2.numBlocks = blocks.length := by
  refine ⟨?_, ?_, ?_, rfl, rfl⟩
  · haveI htotal : IsTotal Block1 blockLE := ⟨fun a b => by
      unfold blockLE
      omega⟩
    haveI htrans : IsTrans Block1 blockLE := ⟨fun a b c h1 h2 => by
      unfold blockLE at h1 h2 ⊢
      omega⟩
    exact List.sorted_insertionSort blockLE _
  · exact List.perm_insertionSort blockLE _
  · intro pre post a b hsplit hover
    show _ ∈ selfCheck (sortBlocks blocks)
    rw [hsplit]
    exact selfCheck_mem pre post a b hover

/-- Witness for C4 at a concrete input: two recorded blocks whose spans
overlap; the self-check emits the diagnostic naming both spans, and the
declaration output still covers both blocks. -/
theorem C4_selfCheck_witness :
    sortBlocks [⟨0, 10, 1⟩, ⟨5, 8, 2⟩] =
      [⟨⟨0, 10, 1⟩, 0⟩, ⟨⟨5, 8, 2⟩, 1⟩] ∧
    (10 : Nat) > 5 ∧
    (⟨0, 1, 0, 10, 5, 8⟩ : OverlapDiag) ∈
      (addVariables (fun n => (1, n + 1)) [⟨0, 10, 1⟩, ⟨5, 8, 2⟩]).1 ∧
    (addVariables (fun n => (1, n + 1)) [⟨0, 10, 1⟩, ⟨5, 8, 2⟩]).2.numBlocks = 2 := by
  have hsort : sortBlocks [⟨0, 10, 1⟩, ⟨5, 8, 2⟩] =
      [⟨⟨0, 10, 1⟩, 0⟩, ⟨⟨5, 8, 2⟩, 1⟩] := by
    simp [sortBlocks, List.insertionSort, List.orderedInsert, List.enum, blockLE]
  refine ⟨hsort, by omega, ?_, ?_⟩
  · exact (C4_selfCheck (fun n => (1, n + 1)) [⟨0, 10, 1⟩, ⟨5, 8, 2⟩]).2.2.1
      [] [] ⟨⟨0, 10, 1⟩, 0⟩ ⟨⟨5, 8, 2⟩, 1⟩ hsort (by decide)
  · exact (C4_selfCheck (fun n => (1, n + 1)) [⟨0, 10, 1⟩, ⟨5, 8, 2⟩]).2.2.2.2

theorem beforeBegin_mono {b : PBlock} {e1 e2 : Extent}
    (h : beforeBegin b e1 = true) (hle : startLE e1 e2) : beforeBegin b e2 = true := by
  simp only [beforeBegin, Bool.or_eq_true, Bool.and_eq_true, decide_eq_true_eq] at h ⊢
  unfold startLE at hle
  omega

theorem scanBlocks_ne_none {e : Extent} {orig l : List PBlock}
    (h : ∃ b ∈ l, beforeBegin b e = false) : scanBlocks e orig l ≠ none := by
  induction l with
  | nil => simp at h
  | cons b bs ih =>
    obtain ⟨b0, hb0, hbb⟩ := h
    by_cases hp : pastEnd b e = true
    · simp [scanBlocks, hp]
    · by_cases hbe : beforeBegin b e = true
      · rcases List.mem_cons.mp hb0 with rfl | hmem
        · rw [hbe] at hbb
          cases hbb
        · simp only [scanBlocks, hp, if_false, hbe, if_true]
          exact ih ⟨b0, hmem, hbb⟩
      · simp [scanBlocks, hp, hbe]

theorem scanBlocks_sub {e : Extent} {orig : List PBlock} :
    ∀ {l : List PBlock} {bs2 : List PBlock} {m : Bool},
      l.IsSuffix orig → scanBlocks e orig l = some (bs2, m) →
      bs2 ⊆ orig ∧ ∀ b ∈ l, beforeBegin b e = false → b ∈ bs2 := by
  intro l
  induction l with
  | nil => intro bs2 m _ h; simp [scanBlocks] at h
  | cons b bs ih =>
    intro bs2 m hsuf h
    by_cases hp : pastEnd b e = true
    · simp only [scanBlocks, hp, if_true] at h
      obtain ⟨h1, h2⟩ := Prod.mk.injEq .. ▸ (Option.some.inj h)
      subst h1
      exact ⟨hsuf.subset, fun b1 hb1 _ => hb1⟩
    · by_cases hbe : beforeBegin b e = true
      · simp only [scanBlocks, hp, if_false, hbe, if_true] at h
        have hsuf2 : bs.IsSuffix orig := (List.suffix_cons b bs).trans hsuf
        obtain ⟨hsub, hmem⟩ := ih hsuf2 h
        refine ⟨hsub, fun b1 hb1 hbb => ?_⟩
        rcases List.mem_cons.mp hb1 with rfl | hmem1
        · rw [hbe] at hbb
          cases hbb
        · exact hmem b1 hmem1 hbb
      · simp only [scanBlocks, hp, if_false, hbe] at h
        obtain ⟨h1, h2⟩ := Prod.mk.injEq .. ▸ (Option.some.inj h)
        subst h1
        exact ⟨fun x hx => hx, fun b1 hb1 _ => hsuf.subset hb1⟩

theorem scanBlocks_marked {e : Extent} {orig : List PBlock} :
    ∀ {l : List PBlock} {bs2 : List PBlock},
      scanBlocks e orig l = some (bs2, true) →
      ∃ b ∈ l, overlaps b e = true ∧ b.count > 0 := by
  intro l
  induction l with
  | nil => intro bs2 h; simp [scanBlocks] at h
  | cons b bs ih =>
    intro bs2 h
    by_cases hp : pastEnd b e = true
    · simp only [scanBlocks, hp, if_true] at h
      obtain ⟨h1, h2⟩ := Prod.mk.injEq .. ▸ (Option.some.inj h)
      cases h2
    · by_cases hbe : beforeBegin b e = true
      · simp only [scanBlocks, hp, if_false, hbe, if_true] at h
        obtain ⟨b1, hb1, hov⟩ := ih h
        exact ⟨b1, List.mem_cons_of_mem b hb1, hov⟩
      · simp only [scanBlocks, hp, if_false, hbe] at h
        obtain ⟨h1, h2⟩ := Prod.mk.injEq .. ▸ (Option.some.inj h)
        refine ⟨b, List.mem_cons_self b bs, ?_, by simpa using h2.symm⟩
        simp [overlaps, hp, hbe]

/-- The outer sweep loop, run for as many iterations as there are extents,
empties the extent list and marks only identities of extents for which an
overlapping record with positive count exists — provided the extents are in
position order and every extent has at least one record not strictly before it. -/
theorem runSweep_complete :
    ∀ (es : List Extent) (bs : List PBlock) (acc : List Nat),
      List.Pairwise startLE es →
      (∀ e ∈ es, ∃ b ∈ bs, beforeBegin b e = false) →
      (runSweep es.length ⟨es, bs, acc⟩).extents = [] ∧
      ∃ m, (runSweep es.length ⟨es, bs, acc⟩).reached = acc ++ m ∧
        ∀ i ∈ m, ∃ e ∈ es, i = e.id ∧ ∃ b ∈ bs, overlaps b e = true ∧ b.count > 0 := by
  intro es
  induction es with
  | nil =>
    intro bs acc _ _
    exact ⟨rfl, [], by simp [runSweep], by simp⟩
  | cons e es ih =>
    intro bs acc hsort hcov
    have hw : ∃ b ∈ bs, beforeBegin b e = false := hcov e (List.mem_cons_self e es)
    obtain ⟨r, hscan⟩ : ∃ r, scanBlocks e bs bs = some r := by
      cases hsc : scanBlocks e bs bs with
      | none => exact absurd hsc (scanBlocks_ne_none hw)
      | some r => exact ⟨r, rfl⟩
    obtain ⟨bs2, m⟩ := r
    have hstep : sweepStep ⟨e :: es, bs, acc⟩ =
        ⟨es, bs2, if m then acc ++ [e.id] else acc⟩ := by
      simp [sweepStep, hscan]
    have hsub := scanBlocks_sub (List.suffix_refl bs) hscan
    have hcov2 : ∀ e2 ∈ es, ∃ b ∈ bs2, beforeBegin b e2 = false := by
      intro e2 he2
      obtain ⟨b, hb, hbb⟩ := hcov e2 (List.mem_cons_of_mem e he2)
      have hnb : beforeBegin b e = false := by
        by_contra hC
        rw [Bool.not_eq_false] at hC
        have := beforeBegin_mono hC (List.rel_of_pairwise_cons hsort he2)
        rw [this] at hbb
        cases hbb
      exact ⟨b, hsub.2 b hb hnb, hbb⟩
    have hrec := ih bs2 (if m then acc ++ [e.id] else acc) hsort.of_cons hcov2
    have hrun : runSweep (e :: es).length ⟨e :: es, bs, acc⟩ =
        runSweep es.length ⟨es, bs2, if m then acc ++ [e.id] else acc⟩ := by
      rw [List.length_cons, runSweep, hstep]
    rw [hrun]
    refine ⟨hrec.1, ?_⟩
    obtain ⟨m2, hm2, hall⟩ := hrec.2
    cases m with
    | false =>
      refine ⟨m2, by simpa using hm2, fun i hi => ?_⟩
      obtain ⟨e2, he2, hid, b, hb, hov⟩ := hall i hi
      exact ⟨e2, List.mem_cons_of_mem e he2, hid, b, hsub.1 hb, hov⟩
    | true =>
      refine ⟨e.id :: m2, ?_, fun i hi => ?_⟩
      · rw [if_pos rfl] at hm2
        simpa using hm2
      · rcases List.mem_cons.mp hi with rfl | hi2
        · obtain ⟨b, hb, hov⟩ := scanBlocks_marked hscan
          exact ⟨e, List.mem_cons_self e es, rfl, b, hb, hov⟩
        · obtain ⟨e2, he2, hid, b, hb, hov⟩ := hall i hi2
          exact ⟨e2, List.mem_cons_of_mem e he2, hid, b, hsub.1 hb, hov⟩

/-- C1, counterexample: the sweep does not terminate on every input.  With a
single function or statement extent and an empty coverage-record list, the
inner loop finds no record to consume the extent with and falls through
without a `break`; one outer iteration leaves the loop state completely
unchanged, so the `for len(funcs) > 0` loop runs forever.  (The same happens
whenever every record ends strictly before an extent.) -/
theorem C1_counterexample :
    sweepStep ⟨[⟨1, 1, 1, 2, 1⟩], [], []⟩ = ⟨[⟨1, 1, 1, 2, 1⟩], [], []⟩ ∧
    ¬ SweepTerminates [⟨1, 1, 1, 2, 1⟩] [] := by
  have hfix : ∀ n, runSweep n ⟨[⟨1, 1, 1, 2, 1⟩], [], []⟩ = ⟨[⟨1, 1, 1, 2, 1⟩], [], []⟩ := by
    intro n
    induction n with
    | zero => rfl
    | succ n ih =>
      rw [runSweep]
      exact ih
  refine ⟨rfl, ?_⟩
  rintro ⟨n, hn⟩
  rw [hfix n] at hn
  cases hn

/-- C1, amended: for every per-file record list and every position-sorted
extent list *in which every extent has at least one record not strictly before
it* (in particular, whenever some record starts at or after each extent's
end), the correlation sweep terminates — one extent is consumed per
iteration — and every extent that overlaps no record is marked not reached.
Without that proviso the loop can fail to advance (see the counterexample). -/
theorem C1_sweep (es : List Extent) (bs : List PBlock)
    (hsort : List.Pairwise startLE es)
    (hnodup : (es.map Extent.id).Nodup)
    (hcov : ∀ e ∈ es, ∃ b ∈ bs, beforeBegin b e = false) :
    SweepTerminates es bs ∧
    ∀ e ∈ es, (∀ b ∈ bs, overlaps b e = false) →
      e.id ∉ (runSweep es.length ⟨es, bs, []⟩).reached := by
  obtain ⟨hdone, m, hm, hall⟩ := runSweep_complete es bs [] hsort hcov
  refine ⟨⟨es.length, hdone⟩, fun e he hnov hmem => ?_⟩
  rw [hm] at hmem
  simp only [List.nil_append] at hmem
  obtain ⟨e2, he2, hid, b, hb, hov, _⟩ := hall e.id hmem
  have : e = e2 := List.inj_on_of_nodup_map hnodup he he2 hid
  subst this
  rw [hnov b hb] at hov
  cases hov

/-- Witness for C1 (amended) at a concrete input: one extent spanning
(1,1)–(2,1) and one record starting at line 3 — after the extent, so the sweep
consumes the extent via the past-the-end branch; the run terminates and the
extent, overlapping no record, is not marked reached. -/
theorem C1_sweep_witness :
    List.Pairwise startLE [⟨7, 1, 1, 2, 1⟩] ∧
    (([⟨7, 1, 1, 2, 1⟩] : List Extent).map Extent.id).Nodup ∧
    (∀ e ∈ [(⟨7, 1, 1, 2, 1⟩ : Extent)],
      ∃ b ∈ [(⟨3, 1, 4, 1, 1, 5⟩ : PBlock)], beforeBegin b e = false) ∧
    SweepTerminates [⟨7, 1, 1, 2, 1⟩] [⟨3, 1, 4, 1, 1, 5⟩] ∧
    (7 : Nat) ∉ (runSweep 1 ⟨[⟨7, 1, 1, 2, 1⟩], [⟨3, 1, 4, 1, 1, 5⟩], []⟩).reached := by
  have h := C1_sweep [⟨7, 1, 1, 2, 1⟩] [⟨3, 1, 4, 1, 1, 5⟩]
    (by decide) (by decide) (by decide)
  exact ⟨by decide, by decide, by decide, h.1,
    h.2 ⟨7, 1, 1, 2, 1⟩ (by decide) (by decide)⟩

theorem trimDeclsP_frame (p : Profile) (ds : List Decl) :
    (trimDeclsP p ds).2 = p ∧ (trimDeclsP p ds).1 = trimDecls p ds := by
  induction ds with
  | nil => exact ⟨rfl, rfl⟩
  | cons d ds ih =>
    cases d with
    | funcDecl id name body =>
      by_cases h : p.Funcs id <;>
        simp [trimDeclsP, declKeepP, trimDecls, h, ih.1, ih.2]
    | genDecl id => simp [trimDeclsP, declKeepP, trimDecls, ih.1, ih.2]

theorem trimDeclListP_frame (p : Profile) (ds : List Decl) :
    (trimDeclListP p ds).2 = p ∧ (trimDeclListP p ds).1 = ds.map (trimDecl p) := by
  induction ds with
  | nil => exact ⟨rfl, rfl⟩
  | cons d ds ih =>
    have hd : trimDeclP p d = (trimDecl p d, p) := by
      cases d <;> simp [trimDeclP, trimDecl]
    simp [trimDeclListP, hd, ih.1, ih.2]

/-- C9: `Profile.Trim` leaves the profile unchanged — the `Stmts` reached-set,
the `Funcs` reached-set, the `Files` list and the position table `Fset` are
identical before and after trimming (the trimmer only reads them); only the
syntax tree passed in is rewritten, exactly as `trimFile` describes. -/
theorem C9_profile_frame (p : Profile) (f : GoFile) :
    (trimFileP p f).2.Stmts = p.Stmts ∧
    (trimFileP p f).2.Funcs = p.Funcs ∧
    (trimFileP p f).2.Files = p.Files ∧
    (trimFileP p f).2.Fset = p.Fset ∧
    (trimFileP p f).2 = p ∧
    (trimFileP p f).1 = trimFile p f := by
  have h1 := trimDeclsP_frame p f.decls
  have hP : trimFileP p f = (⟨(trimDecls p f.decls).map (trimDecl p)⟩, p) := by
    rw [trimFileP]
    rw [h1.1, h1.2]
    have h2 := trimDeclListP_frame p (trimDecls p f.decls)
    rw [show trimDeclListP p (trimDecls p f.decls) =
      ((trimDecls p f.decls).map (trimDecl p), p) from Prod.ext h2.2 h2.1]
  rw [hP]
  exact ⟨rfl, rfl, rfl, rfl, rfl, rfl⟩

theorem wfStmtList_iff {l : List Stmt} :
    wfStmtList l = true ↔ ∀ s ∈ l, wfStmt s = true := by
  induction l with
  | nil => simp [wfStmtList]
  | cons s rest ih => simp [wfStmtList, ih]

theorem wfExprList_iff {l : List Expr} :
    wfExprList l = true ↔ ∀ e ∈ l, wfExpr e = true := by
  induction l with
  | nil => simp [wfExprList]
  | cons e rest ih => simp [wfExprList, ih]

theorem trimList_append (p : Profile) (l1 l2 : List Stmt) :
    trimList p (l1 ++ l2) = trimList p l1 ++ trimList p l2 := by
  induction l1 with
  | nil => simp [trimList_nil]
  | cons s rest ih => simp [trimList_cons, ih]

/-- Membership in a trimmed list: exactly the descended replacements of the
original elements. -/
theorem mem_trimList {p : Profile} {l : List Stmt} {x : Stmt} :
    x ∈ trimList p l ↔ ∃ s ∈ l, ∃ t ∈ replaceStmt p s, x = trimStmt p t := by
  induction l with
  | nil => simp [trimList_nil]
  | cons s rest ih =>
    simp only [trimList_cons, List.mem_append, List.mem_map, ih, List.mem_cons]
    constructor
    · rintro (⟨t, ht, rfl⟩ | ⟨s2, hs2, t, ht, rfl⟩)
      · exact ⟨s, Or.inl rfl, t, ht, rfl⟩
      · exact ⟨s2, Or.inr hs2, t, ht, rfl⟩
    · rintro ⟨s2, rfl | hs2, t, ht, rfl⟩
      · exact Or.inl ⟨t, ht, rfl⟩
      · exact Or.inr ⟨s2, hs2, t, ht, rfl⟩

/-- A list of statements each fixed by both `replaceStmt` and the descent is
fixed by the list rewrite. -/
theorem trimList_fixed {p : Profile} {l : List Stmt}
    (h : ∀ x ∈ l, replaceStmt p x = [x] ∧ trimStmt p x = x) :
    trimList p l = l := by
  induction l with
  | nil => exact trimList_nil p
  | cons s rest ih =>
    have hs := h s (List.mem_cons_self s rest)
    rw [trimList_cons, hs.1]
    simp only [List.map_cons, List.map_nil, hs.2]
    rw [ih (fun x hx => h x (List.mem_cons_of_mem s hx))]
    rfl

/-- A comm clause is left alone by `replaceStmt` (it hits the default case). -/
theorem replaceStmt_of_commClause {p : Profile} {s : Stmt}
    (h : isCommClause s = true) : replaceStmt p s = [s] := by
  cases s <;> simp [isCommClause] at h
  simp [replaceStmt]

theorem isCommClause_trimStmt (p : Profile) (s : Stmt) :
    isCommClause (trimStmt p s) = isCommClause s := by
  cases s <;> simp [trimStmt, isCommClause]

/-- On a list of comm clauses (a parser-shaped select body) the list rewrite
is exactly the elementwise descent. -/
theorem trimList_of_commClauses {p : Profile} {l : List Stmt}
    (h : ∀ c ∈ l, isCommClause c = true) :
    trimList p l = l.map (trimStmt p) := by
  induction l with
  | nil => simp [trimList_nil]
  | cons c rest ih =>
    rw [trimList_cons, replaceStmt_of_commClause (h c (List.mem_cons_self c rest))]
    simp only [List.map_cons, List.map_nil, List.singleton_append, List.cons_append,
      List.nil_append]
    rw [ih (fun x hx => h x (List.mem_cons_of_mem c hx))]

mutual

/-- A call found inside a wellformed expression is itself wellformed. -/
theorem wf_findCallExpr (e : Expr) (c : Expr) (h : findCallExpr e = some c)
    (hw : wfExpr e = true) : wfExpr c = true := by
  match e with
  | .ident n => simp [findCallExpr] at h
  | .basicLit v => simp [findCallExpr] at h
  | .selector x sel =>
    simp only [findCallExpr] at h
    exact wf_findCallExpr x c h (by simpa [wfExpr] using hw)
  | .call fn args ell =>
    simp only [findCallExpr] at h
    exact (Option.some.inj h) ▸ hw
  | .binary op x y =>
    simp only [findCallExpr] at h
    simp only [wfExpr, Bool.and_eq_true] at hw
    rcases orFind_eq_some h with h1 | h1
    · exact wf_findCallExpr x c h1 hw.1
    · exact wf_findCallExpr y c h1 hw.2
  | .funcLit ps body =>
    simp only [findCallExpr] at h
    exact wf_findCallStmtList body c h (by simpa [wfExpr] using hw)

theorem wf_findCallStmt (s : Stmt) (c : Expr) (h : findCallStmt s = some c)
    (hw : wfStmt s = true) : wfExpr c = true := by
  match s with
  | .exprStmt id x =>
    simp only [findCallStmt] at h
    exact wf_findCallExpr x c h (by simpa [wfStmt] using hw)
  | .simpleStmt id exprs =>
    simp only [findCallStmt] at h
    exact wf_findCallExprList exprs c h (by simpa [wfStmt] using hw)
  | .branchStmt id => simp [findCallStmt] at h
  | .labeledStmt id lab s1 =>
    simp only [findCallStmt] at h
    exact wf_findCallStmt s1 c h (by simpa [wfStmt] using hw)
  | .blockStmt id l =>
    simp only [findCallStmt] at h
    exact wf_findCallStmtList l c h (by simpa [wfStmt] using hw)
  | .ifStmt id init cond body els =>
    simp only [findCallStmt] at h
    simp only [wfStmt, Bool.and_eq_true] at hw
    rcases orFind_eq_some h with h1 | h1
    · exact wf_findCallStmtOpt init c h1 hw.1.1.1
    rcases orFind_eq_some h1 with h2 | h2
    · exact wf_findCallExpr cond c h2 hw.1.1.2
    rcases orFind_eq_some h2 with h3 | h3
    · exact wf_findCallStmt body c h3 hw.1.2
    · exact wf_findCallStmtOpt els c h3 hw.2
  | .forStmt id init cond post body =>
    simp only [findCallStmt] at h
    simp only [wfStmt, Bool.and_eq_true] at hw
    rcases orFind_eq_some h with h1 | h1
    · exact wf_findCallStmtOpt init c h1 hw.1.1.1
    rcases orFind_eq_some h1 with h2 | h2
    · exact wf_findCallExprOpt cond c h2 hw.1.1.2
    rcases orFind_eq_some h2 with h3 | h3
    · exact wf_findCallStmtOpt post c h3 hw.1.2
    · exact wf_findCallStmt body c h3 hw.2
  | .rangeStmt id x body =>
    simp only [findCallStmt] at h
    simp only [wfStmt, Bool.and_eq_true] at hw
    rcases orFind_eq_some h with h1 | h1
    · exact wf_findCallExpr x c h1 hw.1
    · exact wf_findCallStmt body c h1 hw.2
  | .switchStmt id body =>
    simp only [findCallStmt] at h
    exact wf_findCallStmt body c h (by simpa [wfStmt] using hw)
  | .typeSwitchStmt id body =>
    simp only [findCallStmt] at h
    exact wf_findCallStmt body c h (by simpa [wfStmt] using hw)
  | .selectStmt id bid clauses =>
    simp only [findCallStmt] at h
    simp only [wfStmt, Bool.and_eq_true] at hw
    exact wf_findCallStmtList clauses c h hw.2
  | .commClause id body =>
    simp only [findCallStmt] at h
    exact wf_findCallStmtList body c h (by simpa [wfStmt] using hw)
  | .caseClause id body =>
    simp only [findCallStmt] at h
    exact wf_findCallStmtList body c h (by simpa [wfStmt] using hw)

theorem wf_findCallStmtOpt (o : Option Stmt) (c : Expr) (h : findCallStmtOpt o = some c)
    (hw : wfStmtOpt o = true) : wfExpr c = true := by
  match o with
  | none => simp [findCallStmtOpt] at h
  | some s =>
    simp only [findCallStmtOpt] at h
    exact wf_findCallStmt s c h (by simpa [wfStmtOpt] using hw)

theorem wf_findCallExprOpt (o : Option Expr) (c : Expr) (h : findCallExprOpt o = some c)
    (hw : wfExprOpt o = true) : wfExpr c = true := by
  match o with
  | none => simp [findCallExprOpt] at h
  | some e =>
    simp only [findCallExprOpt] at h
    exact wf_findCallExpr e c h (by simpa [wfExprOpt] using hw)

theorem wf_findCallStmtList (l : List Stmt) (c : Expr) (h : findCallStmtList l = some c)
    (hw : wfStmtList l = true) : wfExpr c = true := by
  match l with
  | [] => simp [findCallStmtList] at h
  | s :: rest =>
    simp only [findCallStmtList] at h
    simp only [wfStmtList, Bool.and_eq_true] at hw
    rcases orFind_eq_some h with h1 | h1
    · exact wf_findCallStmt s c h1 hw.1
    · exact wf_findCallStmtList rest c h1 hw.2

theorem wf_findCallExprList (l : List Expr) (c : Expr) (h : findCallExprList l = some c)
    (hw : wfExprList l = true) : wfExpr c = true := by
  match l with
  | [] => simp [findCallExprList] at h
  | e :: rest =>
    simp only [findCallExprList] at h
    simp only [wfExprList, Bool.and_eq_true] at hw
    rcases orFind_eq_some h with h1 | h1
    · exact wf_findCallExpr e c h1 hw.1
    · exact wf_findCallExprList rest c h1 hw.2

end

mutual

/-- Replacement preserves parser-wellformedness. -/
theorem wf_replaceStmt (p : Profile) (s : Stmt) (hw : wfStmt s = true) :
    ∀ t ∈ replaceStmt p s, wfStmt t = true := by
  match s with
  | .exprStmt id x => intro t ht; simp [replaceStmt] at ht; exact ht ▸ hw
  | .simpleStmt id exprs => intro t ht; simp [replaceStmt] at ht; exact ht ▸ hw
  | .branchStmt id => intro t ht; simp [replaceStmt] at ht; exact ht ▸ hw
  | .labeledStmt id lab s1 => intro t ht; simp [replaceStmt] at ht; exact ht ▸ hw
  | .blockStmt id l => intro t ht; simp [replaceStmt] at ht; exact ht ▸ hw
  | .switchStmt id body => intro t ht; simp [replaceStmt] at ht; exact ht ▸ hw
  | .typeSwitchStmt id body => intro t ht; simp [replaceStmt] at ht; exact ht ▸ hw
  | .commClause id body => intro t ht; simp [replaceStmt] at ht; exact ht ▸ hw
  | .caseClause id body => intro t ht; simp [replaceStmt] at ht; exact ht ▸ hw
  | .rangeStmt id x body =>
    intro t ht
    simp only [replaceStmt] at ht
    simp only [wfStmt, Bool.and_eq_true] at hw
    by_cases hv : visited p body = true
    · simp [hv] at ht
      subst ht
      simp [wfStmt, hw.1, hw.2]
    · simp only [hv, if_false, Bool.false_eq_true] at ht
      match hc : findCallExpr x with
      | some call =>
        rw [hc] at ht
        simp at ht
        subst ht
        simpa [wfStmt] using wf_findCallExpr x call hc hw.1
      | none =>
        rw [hc] at ht
        simp at ht
  | .forStmt id init cond post body =>
    intro t ht
    simp only [replaceStmt] at ht
    simp only [wfStmt, Bool.and_eq_true] at hw
    by_cases hv : visited p body = true
    · simp [hv] at ht
      subst ht
      simp only [wfStmt, Bool.and_eq_true]
      exact ⟨⟨⟨hw.1.1.1, hw.1.1.2⟩, hw.1.2⟩, hw.2⟩
    · simp only [hv, if_false, Bool.false_eq_true] at ht
      obtain ⟨c, rfl, hc⟩ := mem_extractCalls ht
      simp only [List.mem_cons, List.mem_singleton] at hc
      rcases hc with hc | hc | hc | hc
      · simpa [wfStmt] using wf_findCallStmtOpt init c hc.symm hw.1.1.1
      · simpa [wfStmt] using wf_findCallExprOpt cond c hc.symm hw.1.1.2
      · simpa [wfStmt] using wf_findCallStmtOpt post c hc.symm hw.1.2
      · simp at hc
  | .ifStmt id init cond body els =>
    intro t ht
    simp only [replaceStmt] at ht
    simp only [wfStmt, Bool.and_eq_true] at hw
    by_cases hv : visited p body = true
    · simp only [hv, Bool.not_true, Bool.false_eq_true, if_false] at ht
      by_cases hve : visitedOpt p els = true
      · simp [hve] at ht
        subst ht
        simp only [wfStmt, Bool.and_eq_true]
        exact hw
      · simp [hve] at ht
        subst ht
        simp only [wfStmt, Bool.and_eq_true]
        exact ⟨hw.1, by simp [wfStmtOpt]⟩
    · simp only [hv, Bool.not_false, Bool.false_eq_true, if_true] at ht
      rw [List.mem_append] at ht
      rcases ht with ht | ht
      · obtain ⟨c, rfl, hc⟩ := mem_extractCalls ht
        simp only [List.mem_cons, List.mem_singleton] at hc
        rcases hc with hc | hc | hc
        · simpa [wfStmt] using wf_findCallStmtOpt init c hc.symm hw.1.1.1
        · simpa [wfStmt] using wf_findCallExpr cond c hc.symm hw.1.1.2
        · simp at hc
      · by_cases hve : visitedOpt p els = true
        · rw [if_pos hve] at ht
          exact wf_replaceStmtOpt p els hw.2 t ht
        · rw [if_neg hve] at ht
          simp at ht
  | .selectStmt id bid clauses =>
    intro t ht
    simp only [replaceStmt, List.mem_singleton] at ht
    subst ht
    simp only [wfStmt, Bool.and_eq_true] at hw ⊢
    constructor
    · rw [List.all_eq_true] at hw ⊢
      exact fun c hc => hw.1 c (List.mem_of_mem_filter hc)
    · rw [wfStmtList_iff] at hw ⊢
      exact fun c hc => hw.2 c (List.mem_of_mem_filter hc)

theorem wf_replaceStmtOpt (p : Profile) (o : Option Stmt) (hw : wfStmtOpt o = true) :
    ∀ t ∈ replaceStmtOpt p o, wfStmt t = true := by
  match o with
  | none => intro t ht; simp [replaceStmtOpt] at ht
  | some s =>
    intro t ht
    simp only [replaceStmtOpt] at ht
    exact wf_replaceStmt p s (by simpa [wfStmtOpt] using hw) t ht

end

mutual

/-- The walk descent preserves parser-wellformedness. -/
theorem wf_trimStmt (p : Profile) (s : Stmt) (hw : wfStmt s = true) :
    wfStmt (trimStmt p s) = true := by
  match s with
  | .exprStmt id x =>
    simp only [trimStmt, wfStmt]
    exact wf_trimExpr p x (by simpa [wfStmt] using hw)
  | .simpleStmt id exprs =>
    simp only [trimStmt, wfStmt]
    exact wf_trimExprList p exprs (by simpa [wfStmt] using hw)
  | .branchStmt id => simp [trimStmt, wfStmt]
  | .labeledStmt id lab s1 =>
    simp only [trimStmt, wfStmt]
    exact wf_trimStmt p s1 (by simpa [wfStmt] using hw)
  | .blockStmt id l =>
    simp only [trimStmt, wfStmt]
    exact wf_trimList p l (by simpa [wfStmt] using hw)
  | .ifStmt id init cond body els =>
    simp only [wfStmt, Bool.and_eq_true] at hw
    simp only [trimStmt, wfStmt, Bool.and_eq_true]
    exact ⟨⟨⟨wf_trimStmtOpt p init hw.1.1.1, wf_trimExpr p cond hw.1.1.2⟩,
      wf_trimStmt p body hw.1.2⟩, wf_trimStmtOpt p els hw.2⟩
  | .forStmt id init cond post body =>
    simp only [wfStmt, Bool.and_eq_true] at hw
    simp only [trimStmt, wfStmt, Bool.and_eq_true]
    exact ⟨⟨⟨wf_trimStmtOpt p init hw.1.1.1, wf_trimExprOpt p cond hw.1.1.2⟩,
      wf_trimStmtOpt p post hw.1.2⟩, wf_trimStmt p body hw.2⟩
  | .rangeStmt id x body =>
    simp only [wfStmt, Bool.and_eq_true] at hw
    simp only [trimStmt, wfStmt, Bool.and_eq_true]
    exact ⟨wf_trimExpr p x hw.1, wf_trimStmt p body hw.2⟩
  | .switchStmt id body =>
    simp only [trimStmt, wfStmt]
    exact wf_trimStmt p body (by simpa [wfStmt] using hw)
  | .typeSwitchStmt id body =>
    simp only [trimStmt, wfStmt]
    exact wf_trimStmt p body (by simpa [wfStmt] using hw)
  | .selectStmt id bid clauses =>
    simp only [wfStmt, Bool.and_eq_true] at hw
    simp only [trimStmt, wfStmt, Bool.and_eq_true]
    have hcc : ∀ c ∈ clauses, isCommClause c = true := List.all_eq_true.mp hw.1
    constructor
    · rw [trimList_of_commClauses hcc, List.all_eq_true]
      rintro x hx
      obtain ⟨c, hc, rfl⟩ := List.mem_map.mp hx
      rw [isCommClause_trimStmt]
      exact hcc c hc
    · exact wf_trimList p clauses hw.2
  | .commClause id body =>
    simp only [trimStmt, wfStmt]
    exact wf_trimList p body (by simpa [wfStmt] using hw)
  | .caseClause id body =>
    simp only [trimStmt, wfStmt]
    exact wf_trimList p body (by simpa [wfStmt] using hw)
termination_by sizeOf s
decreasing_by all_goals (simp_wf; try omega)

theorem wf_trimExpr (p : Profile) (e : Expr) (hw : wfExpr e = true) :
    wfExpr (trimExpr p e) = true := by
  match e with
  | .ident n => simp [trimExpr, wfExpr]
  | .basicLit v => simp [trimExpr, wfExpr]
  | .selector x sel =>
    simp only [trimExpr, wfExpr]
    exact wf_trimExpr p x (by simpa [wfExpr] using hw)
  | .call fn args ell =>
    simp only [wfExpr, Bool.and_eq_true] at hw
    simp only [trimExpr, wfExpr, Bool.and_eq_true]
    exact ⟨wf_trimExpr p fn hw.1, wf_trimExprList p args hw.2⟩
  | .binary op x y =>
    simp only [wfExpr, Bool.and_eq_true] at hw
    simp only [trimExpr, wfExpr, Bool.and_eq_true]
    exact ⟨wf_trimExpr p x hw.1, wf_trimExpr p y hw.2⟩
  | .funcLit ps body =>
    simp only [trimExpr, wfExpr]
    exact wf_trimList p body (by simpa [wfExpr] using hw)
termination_by sizeOf e
decreasing_by all_goals (simp_wf; try omega)

theorem wf_trimStmtOpt (p : Profile) (o : Option Stmt) (hw : wfStmtOpt o = true) :
    wfStmtOpt (trimStmtOpt p o) = true := by
  match o with
  | none => simp [trimStmtOpt, wfStmtOpt]
  | some s =>
    simp only [trimStmtOpt, wfStmtOpt]
    exact wf_trimStmt p s (by simpa [wfStmtOpt] using hw)
termination_by sizeOf o
decreasing_by all_goals (simp_wf; try omega)

theorem wf_trimExprOpt (p : Profile) (o : Option Expr) (hw : wfExprOpt o = true) :
    wfExprOpt (trimExprOpt p o) = true := by
  match o with
  | none => simp [trimExprOpt, wfExprOpt]
  | some e =>
    simp only [trimExprOpt, wfExprOpt]
    exact wf_trimExpr p e (by simpa [wfExprOpt] using hw)
termination_by sizeOf o
decreasing_by all_goals (simp_wf; try omega)

theorem wf_trimExprList (p : Profile) (l : List Expr) (hw : wfExprList l = true) :
    wfExprList (trimExprList p l) = true := by
  match l with
  | [] => simp [trimExprList, wfExprList]
  | e :: rest =>
    simp only [wfExprList, Bool.and_eq_true] at hw
    simp only [trimExprList, wfExprList, Bool.and_eq_true]
    exact ⟨wf_trimExpr p e hw.1, wf_trimExprList p rest hw.2⟩
termination_by sizeOf l
decreasing_by all_goals (simp_wf; try omega)

theorem wf_trimList (p : Profile) (l : List Stmt) (hw : wfStmtList l = true) :
    wfStmtList (trimList p l) = true := by
  rw [wfStmtList_iff]
  intro x hx
  obtain ⟨s, hs, t, ht, rfl⟩ := mem_trimList.mp hx
  have hws : wfStmt s = true := wfStmtList_iff.mp hw s hs
  have hwt : wfStmt t = true := wf_replaceStmt p s hws t ht
  exact wf_trimStmt p t hwt
termination_by sizeOf l
decreasing_by
  all_goals simp_wf
  all_goals
    (have h1 := replaceStmt_sizeOf p s t ht
     have h2 := List.sizeOf_lt_of_mem hs
     omega)

end

mutual

/-- Stability: every statement the rewrite emits is, after the descent, left
alone by a second application of `replaceStmt`. -/
theorem replaceStmt_stable (p : Profile) (s : Stmt) (hw : wfStmt s = true) :
    ∀ t ∈ replaceStmt p s, replaceStmt p (trimStmt p t) = [trimStmt p t] := by
  match s with
  | .exprStmt id x =>
    intro t ht
    simp only [replaceStmt, List.mem_singleton] at ht
    subst ht
    simp [trimStmt, replaceStmt]
  | .simpleStmt id exprs =>
    intro t ht
    simp only [replaceStmt, List.mem_singleton] at ht
    subst ht
    simp [trimStmt, replaceStmt]
  | .branchStmt id =>
    intro t ht
    simp only [replaceStmt, List.mem_singleton] at ht
    subst ht
    simp [trimStmt, replaceStmt]
  | .labeledStmt id lab s1 =>
    intro t ht
    simp only [replaceStmt, List.mem_singleton] at ht
    subst ht
    simp [trimStmt, replaceStmt]
  | .blockStmt id l =>
    intro t ht
    simp only [replaceStmt, List.mem_singleton] at ht
    subst ht
    simp [trimStmt, replaceStmt]
  | .switchStmt id body =>
    intro t ht
    simp only [replaceStmt, List.mem_singleton] at ht
    subst ht
    simp [trimStmt, replaceStmt]
  | .typeSwitchStmt id body =>
    intro t ht
    simp only [replaceStmt, List.mem_singleton] at ht
    subst ht
    simp [trimStmt, replaceStmt]
  | .commClause id body =>
    intro t ht
    simp only [replaceStmt, List.mem_singleton] at ht
    subst ht
    simp [trimStmt, replaceStmt]
  | .caseClause id body =>
    intro t ht
    simp only [replaceStmt, List.mem_singleton] at ht
    subst ht
    simp [trimStmt, replaceStmt]
  | .rangeStmt id x body =>
    intro t ht
    simp only [replaceStmt] at ht
    by_cases hv : visited p body = true
    · simp only [hv, if_true, List.mem_singleton] at ht
      subst ht
      simp [trimStmt, replaceStmt, visited_trimStmt, hv]
    · simp only [hv, if_false, Bool.false_eq_true] at ht
      match hc : findCallExpr x with
      | some call =>
        rw [hc] at ht
        simp only [List.mem_singleton] at ht
        subst ht
        simp [trimStmt, replaceStmt]
      | none =>
        rw [hc] at ht
        simp at ht
  | .forStmt id init cond post body =>
    intro t ht
    simp only [replaceStmt] at ht
    by_cases hv : visited p body = true
    · simp only [hv, if_true, List.mem_singleton] at ht
      subst ht
      simp [trimStmt, replaceStmt, visited_trimStmt, hv]
    · simp only [hv, if_false, Bool.false_eq_true] at ht
      obtain ⟨c, rfl, hc⟩ := mem_extractCalls ht
      simp [trimStmt, replaceStmt]
  | .ifStmt id init cond body els =>
    intro t ht
    simp only [replaceStmt] at ht
    simp only [wfStmt, Bool.and_eq_true] at hw
    by_cases hv : visited p body = true
    · simp only [hv, Bool.not_true, Bool.false_eq_true, if_false] at ht
      by_cases hve : visitedOpt p els = true
      · simp only [hve, Bool.not_true, Bool.false_eq_true, if_false,
          List.mem_singleton] at ht
        subst ht
        simp [trimStmt, replaceStmt, visited_trimStmt, hv, visitedOpt_trimStmtOpt, hve]
      · simp only [hve, Bool.not_false, if_true, List.mem_singleton,
          Bool.false_eq_true] at ht
        subst ht
        simp [trimStmt, trimStmtOpt, replaceStmt, visited_trimStmt, hv, visitedOpt]
    · simp only [hv, Bool.not_false, Bool.false_eq_true, if_true] at ht
      rw [List.mem_append] at ht
      rcases ht with ht | ht
      · obtain ⟨c, rfl, hc⟩ := mem_extractCalls ht
        simp [trimStmt, replaceStmt]
      · by_cases hve : visitedOpt p els = true
        · rw [if_pos hve] at ht
          exact replaceStmtOpt_stable p els hw.2 t ht
        · rw [if_neg hve] at ht
          simp at ht
  | .selectStmt id bid clauses =>
    intro t ht
    simp only [replaceStmt, List.mem_singleton] at ht
    subst ht
    simp only [wfStmt, Bool.and_eq_true] at hw
    have hcc : ∀ c ∈ clauses, isCommClause c = true := List.all_eq_true.mp hw.1
    have hccf : ∀ c ∈ clauses.filter (fun s => visited p s), isCommClause c = true :=
      fun c hc => hcc c (List.mem_of_mem_filter hc)
    simp only [trimStmt, replaceStmt]
    rw [trimList_of_commClauses hccf]
    congr 2
    rw [List.filter_eq_self]
    rintro x hx
    obtain ⟨c, hc, rfl⟩ := List.mem_map.mp hx
    rw [visited_trimStmt]
    exact List.of_mem_filter hc
termination_by sizeOf s
decreasing_by all_goals (simp_wf; try omega)

theorem replaceStmtOpt_stable (p : Profile) (o : Option Stmt) (hw : wfStmtOpt o = true) :
    ∀ t ∈ replaceStmtOpt p o, replaceStmt p (trimStmt p t) = [trimStmt p t] := by
  match o with
  | none => intro t ht; simp [replaceStmtOpt] at ht
  | some s =>
    intro t ht
    simp only [replaceStmtOpt] at ht
    exact replaceStmt_stable p s (by simpa [wfStmtOpt] using hw) t ht
termination_by sizeOf o
decreasing_by all_goals (simp_wf; try omega)

/-- Idempotence of the statement descent on wellformed statements. -/
theorem trimStmt_idem (p : Profile) (s : Stmt) (hw : wfStmt s = true) :
    trimStmt p (trimStmt p s) = trimStmt p s := by
  match s with
  | .exprStmt id x =>
    simp only [trimStmt]
    rw [trimExpr_idem p x (by simpa [wfStmt] using hw)]
  | .simpleStmt id exprs =>
    simp only [trimStmt]
    rw [trimExprList_idem p exprs (by simpa [wfStmt] using hw)]
  | .branchStmt id => simp [trimStmt]
  | .labeledStmt id lab s1 =>
    simp only [trimStmt]
    rw [trimStmt_idem p s1 (by simpa [wfStmt] using hw)]
  | .blockStmt id l =>
    simp only [trimStmt]
    rw [trimList_idem p l (by simpa [wfStmt] using hw)]
  | .ifStmt id init cond body els =>
    simp only [wfStmt, Bool.and_eq_true] at hw
    simp only [trimStmt]
    rw [trimStmtOpt_idem p init hw.1.1.1, trimExpr_idem p cond hw.1.1.2,
      trimStmt_idem p body hw.1.2, trimStmtOpt_idem p els hw.2]
  | .forStmt id init cond post body =>
    simp only [wfStmt, Bool.and_eq_true] at hw
    simp only [trimStmt]
    rw [trimStmtOpt_idem p init hw.1.1.1, trimExprOpt_idem p cond hw.1.1.2,
      trimStmtOpt_idem p post hw.1.2, trimStmt_idem p body hw.2]
  | .rangeStmt id x body =>
    simp only [wfStmt, Bool.and_eq_true] at hw
    simp only [trimStmt]
    rw [trimExpr_idem p x hw.1, trimStmt_idem p body hw.2]
  | .switchStmt id body =>
    simp only [trimStmt]
    rw [trimStmt_idem p body (by simpa [wfStmt] using hw)]
  | .typeSwitchStmt id body =>
    simp only [trimStmt]
    rw [trimStmt_idem p body (by simpa [wfStmt] using hw)]
  | .selectStmt id bid clauses =>
    simp only [wfStmt, Bool.and_eq_true] at hw
    simp only [trimStmt]
    rw [trimList_idem p clauses hw.2]
  | .commClause id body =>
    simp only [trimStmt]
    rw [trimList_idem p body (by simpa [wfStmt] using hw)]
  | .caseClause id body =>
    simp only [trimStmt]
    rw [trimList_idem p body (by simpa [wfStmt] using hw)]
termination_by sizeOf s
decreasing_by all_goals (simp_wf; try omega)

theorem trimExpr_idem (p : Profile) (e : Expr) (hw : wfExpr e = true) :
    trimExpr p (trimExpr p e) = trimExpr p e := by
  match e with
  | .ident n => simp [trimExpr]
  | .basicLit v => simp [trimExpr]
  | .selector x sel =>
    simp only [trimExpr]
    rw [trimExpr_idem p x (by simpa [wfExpr] using hw)]
  | .call fn args ell =>
    simp only [wfExpr, Bool.and_eq_true] at hw
    simp only [trimExpr]
    rw [trimExpr_idem p fn hw.1, trimExprList_idem p args hw.2]
  | .binary op x y =>
    simp only [wfExpr, Bool.and_eq_true] at hw
    simp only [trimExpr]
    rw [trimExpr_idem p x hw.1, trimExpr_idem p y hw.2]
  | .funcLit ps body =>
    simp only [trimExpr]
    rw [trimList_idem p body (by simpa [wfExpr] using hw)]
termination_by sizeOf e
decreasing_by all_goals (simp_wf; try omega)

theorem trimStmtOpt_idem (p : Profile) (o : Option Stmt) (hw : wfStmtOpt o = true) :
    trimStmtOpt p (trimStmtOpt p o) = trimStmtOpt p o := by
  match o with
  | none => simp [trimStmtOpt]
  | some s =>
    simp only [trimStmtOpt]
    rw [trimStmt_idem p s (by simpa [wfStmtOpt] using hw)]
termination_by sizeOf o
decreasing_by all_goals (simp_wf; try omega)

theorem trimExprOpt_idem (p : Profile) (o : Option Expr) (hw : wfExprOpt o = true) :
    trimExprOpt p (trimExprOpt p o) = trimExprOpt p o := by
  match o with
  | none => simp [trimExprOpt]
  | some e =>
    simp only [trimExprOpt]
    rw [trimExpr_idem p e (by simpa [wfExprOpt] using hw)]
termination_by sizeOf o
decreasing_by all_goals (simp_wf; try omega)

theorem trimExprList_idem (p : Profile) (l : List Expr) (hw : wfExprList l = true) :
    trimExprList p (trimExprList p l) = trimExprList p l := by
  match l with
  | [] => simp [trimExprList]
  | e :: rest =>
    simp only [wfExprList, Bool.and_eq_true] at hw
    simp only [trimExprList]
    rw [trimExpr_idem p e hw.1, trimExprList_idem p rest hw.2]
termination_by sizeOf l
decreasing_by all_goals (simp_wf; try omega)

/-- Idempotence of the list rewrite on wellformed statement lists. -/
theorem trimList_idem (p : Profile) (l : List Stmt) (hw : wfStmtList l = true) :
    trimList p (trimList p l) = trimList p l := by
  match l with
  | [] => simp [trimList_nil]
  | s :: rest =>
    simp only [wfStmtList, Bool.and_eq_true] at hw
    rw [trimList_cons, trimList_append]
    have hfix : trimList p ((replaceStmt p s).map (trimStmt p)) =
        (replaceStmt p s).map (trimStmt p) := by
      apply trimList_fixed
      intro x hx
      obtain ⟨t, ht, rfl⟩ := List.mem_map.mp hx
      refine ⟨replaceStmt_stable p s hw.1 t ht, ?_⟩
      exact trimStmt_idem p t (wf_replaceStmt p s hw.1 t ht)
    rw [hfix, trimList_idem p rest hw.2]
termination_by sizeOf l
decreasing_by
  all_goals simp_wf
  all_goals (have h1 := replaceStmt_sizeOf p s t ht; omega)

end

/-- C6: trimming is idempotent on parser-shaped trees.  For every file whose
tree has the shape the Go parser guarantees (select bodies hold only comm
clauses — spec §3's "select: ordered list of communication clauses") and every
profile, applying `Trim` a second time with the same profile to the tree
produced by the first `Trim` leaves the tree unchanged. -/
theorem C6_trim_idempotent (p : Profile) (f : GoFile) (hw : wfFile f = true) :
    trimFile p (trimFile p f) = trimFile p f := by
  have hwd : ∀ d ∈ f.decls, wfDecl d = true := List.all_eq_true.mp hw
  have hmem : ∀ d ∈ trimDecls p f.decls,
      d ∈ f.decls ∧ ∃ i n b, d = Decl.funcDecl i n b ∧ p.Funcs i = true := by
    intro d hd
    rw [trimDecls_eq_filter] at hd
    have h1 := List.mem_of_mem_filter hd
    have h2 := List.of_mem_filter hd
    refine ⟨h1, ?_⟩
    cases d with
    | funcDecl i n b => exact ⟨i, n, b, rfl, by simpa using h2⟩
    | genDecl i => simp at h2
  have step1 : trimDecls p ((trimDecls p f.decls).map (trimDecl p)) =
      (trimDecls p f.decls).map (trimDecl p) := by
    rw [trimDecls_eq_filter, List.filter_eq_self]
    intro d hd
    obtain ⟨d0, hd0, rfl⟩ := List.mem_map.mp hd
    obtain ⟨_, i, n, b, rfl, hF⟩ := (hmem d0 hd0).imp id id
    simpa [trimDecl] using hF
  have step2 : ((trimDecls p f.decls).map (trimDecl p)).map (trimDecl p) =
      (trimDecls p f.decls).map (trimDecl p) := by
    rw [List.map_map]
    apply List.map_congr_left
    intro d hd
    obtain ⟨hdf, i, n, b, rfl, hF⟩ := (hmem d hd).imp id id
    have hwb : wfStmt b = true := by simpa [wfDecl] using hwd _ hdf
    simp [Function.comp, trimDecl, trimStmt_idem p b hwb]
  show (⟨(trimDecls p ((trimDecls p f.decls).map (trimDecl p))).map (trimDecl p)⟩ : GoFile) =
    ⟨(trimDecls p f.decls).map (trimDecl p)⟩
  rw [step1, step2]

/-- Witness for C6 at a concrete input: a file with one reached function whose
body is an if statement with only the else branch reached, plus a type
declaration; the first trim drops the type declaration and rewrites the body,
and a second trim changes nothing. -/
theorem C6_trim_idempotent_witness :
    wfFile ⟨[Decl.funcDecl 1 "main"
        (Stmt.blockStmt 2 [Stmt.ifStmt 3 none (.call (.ident "f") [] false)
          (Stmt.blockStmt 4 [])
          (some (Stmt.blockStmt 5 []))]),
      Decl.genDecl 6]⟩ = true ∧
    trimFile ⟨fun i => decide (i = 5), fun i => decide (i = 1), [], 0⟩
      (trimFile ⟨fun i => decide (i = 5), fun i => decide (i = 1), [], 0⟩
        ⟨[Decl.funcDecl 1 "main"
            (Stmt.blockStmt 2 [Stmt.ifStmt 3 none (.call (.ident "f") [] false)
              (Stmt.blockStmt 4 [])
              (some (Stmt.blockStmt 5 []))]),
          Decl.genDecl 6]⟩) =
    trimFile ⟨fun i => decide (i = 5), fun i => decide (i = 1), [], 0⟩
      ⟨[Decl.funcDecl 1 "main"
          (Stmt.blockStmt 2 [Stmt.ifStmt 3 none (.call (.ident "f") [] false)
            (Stmt.blockStmt 4 [])
            (some (Stmt.blockStmt 5 []))]),
        Decl.genDecl 6]⟩ := by
  have hwf : wfFile ⟨[Decl.funcDecl 1 "main"
      (Stmt.blockStmt 2 [Stmt.ifStmt 3 none (.call (.ident "f") [] false)
        (Stmt.blockStmt 4 [])
        (some (Stmt.blockStmt 5 []))]),
    Decl.genDecl 6]⟩ = true := by
    simp [wfFile, wfDecl, wfStmt, wfStmtList, wfStmtOpt, wfExpr, wfExprList]
  exact ⟨hwf, C6_trim_idempotent _ _ hwf⟩

end Discover
